import Mathlib

/-!
Verification of the `tha2015/ebook` repository: a shallow embedding of
`src/chm/clean_html.py` (HTML cleaning and assembly of a decompiled CHM book)
and `src/jls_se25/download_jls.py` (chapter extraction for the JLS fetcher),
together with theorems settling the specification claims.

Strings are modelled as `List Char`; the parsed BeautifulSoup document tree is
modelled by the inductive `Node` below (tag name, attribute association list,
ordered children; `NavigableString`s are `Node.text`, `Comment`s are
`Node.comment`).  Python semantics that the code relies on are reproduced
explicitly: `str.lower` (on the ASCII / Latin-1 range the inputs use),
`str.strip`, `str.split`, substring containment, and left-to-right
non-overlapping `str.replace`.
-/

set_option maxRecDepth 10000

/-- Convert a Lean string literal to the `List Char` representation used
throughout the model. -/
def chars (s : String) : List Char := s.data

/-- Python `str.lower` restricted to the ASCII and Latin-1 letters that occur
in this repository's inputs (`A`-`Z`, `À`-`Þ` except `×`). -/
def pyLowerChar (c : Char) : Char :=
  if 'A' ≤ c ∧ c ≤ 'Z' then Char.ofNat (c.toNat + 32)
  else if 0xC0 ≤ c.toNat ∧ c.toNat ≤ 0xDE ∧ c.toNat ≠ 0xD7 then Char.ofNat (c.toNat + 32)
  else c

/-- Python `str.lower` on the character range used by this repository. -/
def pyLower (s : List Char) : List Char := s.map pyLowerChar

/-- The whitespace characters stripped/split by Python's `str.strip` and
`str.split` (for the ASCII inputs of this repository). -/
def isPySpace (c : Char) : Bool :=
  c = ' ' ∨ c = '\t' ∨ c = '\n' ∨ c = '\r' ∨ c = '\x0b' ∨ c = '\x0c'

/-- Python `str.strip()`: remove leading and trailing whitespace. -/
def pyStrip (s : List Char) : List Char :=
  ((s.dropWhile isPySpace).reverse.dropWhile isPySpace).reverse

/-- Helper for `pySplit`: accumulate the current word (reversed in `acc`). -/
def pySplitAux : List Char → List Char → List (List Char)
  | acc, [] => if acc = [] then [] else [acc.reverse]
  | acc, c :: rest =>
    if isPySpace c then
      if acc = [] then pySplitAux [] rest else acc.reverse :: pySplitAux [] rest
    else pySplitAux (c :: acc) rest

/-- Python `str.split()` (no argument): split on whitespace runs, dropping
empty tokens. -/
def pySplit (s : List Char) : List (List Char) := pySplitAux [] s

/-- Python `pat in s` substring containment. -/
def hasSubstr (hay pat : List Char) : Bool :=
  if pat.isPrefixOf hay then true
  else
    match hay with
    | [] => false
    | _ :: t => hasSubstr t pat

/-- Python `s.startswith(pat)`. -/
def pyStarts (hay pat : List Char) : Bool := pat.isPrefixOf hay

/-- Python `s.endswith(pat)`. -/
def pyEnds (hay pat : List Char) : Bool := pat.isSuffixOf hay

/-- Python `s.replace('.html', '')`: remove every occurrence of `.html`,
scanning left to right without rescanning (the pattern of
`clean_attributes`, line 171 of `clean_html.py`). -/
def removeHtmlExt : List Char → List Char
  | '.' :: 'h' :: 't' :: 'm' :: 'l' :: rest => removeHtmlExt rest
  | c :: rest => c :: removeHtmlExt rest
  | [] => []

/-- One two-character corrupted-sequence replacement from
`process_html_file` (Python `str.replace` with a 2-char pattern). -/
def fixPair (a b : Char) (rep : List Char) : List Char → List Char
  | [] => []
  | [c] => [c]
  | c :: d :: rest =>
    if c = a ∧ d = b then rep ++ fixPair a b rep rest
    else c :: fixPair a b rep (d :: rest)

/-! ### The document tree -/

/-- A parsed HTML node: mirrors the BeautifulSoup tree built by
`BeautifulSoup(html, 'html.parser')`.  Attribute keys are unique in real
parses; the model keeps them as an association list looked up by first key. -/
inductive Node where
  | text : List Char → Node
  | comment : List Char → Node
  | elem : List Char → List (List Char × List Char) → List Node → Node
deriving Repr

/-- Tag name of an element (`none` for strings/comments). -/
def tagOf : Node → Option (List Char)
  | .elem t _ _ => some t
  | _ => none

/-- Does this node carry the given tag? -/
def isTagB (t : List Char) : Node → Bool
  | .elem u _ _ => u == t
  | _ => false

/-- Attribute lookup, Python `tag.get(key, default)` with default `''` being
`getAttrD`. -/
def getAttr (attrs : List (List Char × List Char)) (k : List Char) : Option (List Char) :=
  match attrs.find? (fun kv => kv.fst == k) with
  | some kv => some kv.snd
  | none => none

/-- Python `tag.get(key, '')`. -/
def getAttrD (attrs : List (List Char × List Char)) (k : List Char) : List Char :=
  (getAttr attrs k).getD []

mutual
/-- `get_text()` of a single node: concatenation of all descendant
`NavigableString`s (comments excluded, as in bs4 ≥ 4.9). -/
def nodeText : Node → List Char
  | .text s => s
  | .comment _ => []
  | .elem _ _ cs => nodesText cs
/-- `get_text()` over a list of sibling nodes. -/
def nodesText : List Node → List Char
  | [] => []
  | n :: ns => nodeText n ++ nodesText ns
end

mutual
/-- Preorder (document-order) list of all nodes in a subtree, the order in
which `find_all` yields matches. -/
def allNodesN : Node → List Node
  | .elem t a cs => .elem t a cs :: allNodesL cs
  | x => [x]
/-- Preorder list of all nodes of a forest. -/
def allNodesL : List Node → List Node
  | [] => []
  | n :: ns => allNodesN n ++ allNodesL ns
end

/-- Number of nodes satisfying a predicate, in the whole tree. -/
def cnt (pred : Node → Bool) (ns : List Node) : Nat :=
  (allNodesL ns).countP pred

/-- All text-node strings of a forest, in document order. -/
def textStrings (ns : List Node) : List (List Char) :=
  (allNodesL ns).filterMap (fun n => match n with | .text s => some s | _ => none)

example : pyLower (chars "McGraw-Hill Â©") = chars "mcgraw-hill â©" := by decide
example : pyStrip (chars "  Chapter One \t") = chars "Chapter One" := by decide
example : pySplit (chars " Chapter  One ") = [chars "Chapter", chars "One"] := by decide
example : hasSubstr (chars "xmcgraw-hilly") (chars "mcgraw-hill") = true := by decide
example : removeHtmlExt (chars "jvm.html.html") = chars "jvm" := by decide
example : removeHtmlExt (chars ".h.htmltml.html") = chars ".html" := by decide

/-! ### Generic cleaning combinators

`remove_navigation_elements` is a fixed sequence of passes.  Each Python pass
materialises a `find_all` list and then mutates; because every check reads the
text of the inspected node at check time and document order is preorder, each
pass is equivalent to the structural recursions below (decomposing an already
detached node is a no-op in bs4, matching the recursions' behaviour on nested
matches). -/

mutual
/-- Remove every node (in preorder) satisfying `p`, like
`for x in soup.find_all(...): if cond(x): x.decompose()`. -/
def decomposeAllN (p : Node → Bool) : Node → List Node
  | .elem t a cs =>
    if p (.elem t a cs) then [] else [.elem t a (decomposeAllL p cs)]
  | x => if p x then [] else [x]
/-- `decomposeAllN` over a forest. -/
def decomposeAllL (p : Node → Bool) : List Node → List Node
  | [] => []
  | n :: ns => decomposeAllN p n ++ decomposeAllL p ns
end

mutual
/-- Unwrap (replace by its children) every element satisfying `p`, like
`for a in soup.find_all('a'): if cond(a): a.unwrap()`. -/
def unwrapAllN (p : Node → Bool) : Node → List Node
  | .elem t a cs =>
    if p (.elem t a cs) then unwrapAllL p cs else [.elem t a (unwrapAllL p cs)]
  | x => [x]
/-- `unwrapAllN` over a forest. -/
def unwrapAllL (p : Node → Bool) : List Node → List Node
  | [] => []
  | n :: ns => unwrapAllN p n ++ unwrapAllL p ns
end

/-! ### `remove_navigation_elements` (clean_html.py lines 12-148) -/

/-- The navigation/branding keyword list (lines 15-20). -/
def nav_keywords : List (List Char) :=
  [chars "orders", chars "comments", chars "mcgraw-hill", chars "copyright",
   chars "terms of use", chars "beta books", chars "contact us",
   chars "order information", chars "online catalog", chars "privacy policy",
   chars "all rights reserved", chars "professional book group",
   chars "division of", chars "computing mcgraw", chars "megaspace.com"]

/-- `any(keyword in text for keyword in nav_keywords)`. -/
def hasNavKeyword (textLower : List Char) : Bool :=
  nav_keywords.any (fun k => hasSubstr textLower k)

/-- Is this tag scanned by the summary-section state machine
(`soup.find_all(['h2', 'h3', 'p', 'div'])`, line 29)? -/
def summaryScanned (t : List Char) : Bool :=
  t == chars "h2" ∨ t == chars "h3" ∨ t == chars "p" ∨ t == chars "div"

/-- Decision of the summary-section state machine (lines 33-55) for one
scanned element, given its tag, its `get_text().strip().lower()` and the
current `in_summary_section` state; returns (marked-for-removal, new state).
The `element.name == 'h1'` exit (line 42) is kept although the scan list
contains no `h1`. -/
def summaryStep (t txt : List Char) (st : Bool) : Bool × Bool :=
  if hasSubstr txt (chars "chapter by chapter") then (true, true)
  else if st then
    if t == chars "h1" then (false, false)
    else if pyStarts txt (chars "part one:") ∨ pyStarts txt (chars "part two:") ∨
            pyStarts txt (chars "the appendices") ∨
            (pyStarts txt (chars "chapter ") ∧ hasSubstr txt (chars ". ")) ∨
            (pyStarts txt (chars "appendix ") ∧ hasSubstr txt (chars ". ")) ∨
            (t == chars "p" ∧ txt.length < 500) then (true, true)
    else if (t == chars "h2" ∨ t == chars "h3") ∧ txt.length > 5 ∧
            ¬ hasSubstr txt (chars "chapter") then (false, false)
    else (false, true)
  else (false, false)

mutual
/-- Summary-section removal over one node: scanned elements are marked by
`summaryStep` (their text read from the unmutated tree, as the Python loop
reads it from the materialised `find_all` list before any `decompose`);
descendants of a marked element are still scanned, evolving the state. -/
def summaryN (st : Bool) : Node → List Node × Bool
  | .elem t a cs =>
    if summaryScanned t then
      let txt := pyLower (pyStrip (nodesText cs))
      let step := summaryStep t txt st
      let rec2 := summaryL step.snd cs
      (if step.fst then [] else [.elem t a rec2.fst], rec2.snd)
    else
      let rec2 := summaryL st cs
      ([.elem t a rec2.fst], rec2.snd)
  | x => ([x], st)
/-- `summaryN` over a forest, threading the state left to right. -/
def summaryL (st : Bool) : List Node → List Node × Bool
  | [] => ([], st)
  | n :: ns =>
    let r1 := summaryN st n
    let r2 := summaryL r1.snd ns
    (r1.fst ++ r2.fst, r2.snd)
end

/-- Pass 1 (lines 26-59): the summary-section removal. -/
def summaryPass (ns : List Node) : List Node := (summaryL false ns).fst

/-- The legacy heading patterns of lines 66-71, applied to
`heading.get_text().strip()`. -/
def legacyHeadingMatch (n : Node) : Bool :=
  (isTagB (chars "h2") n ∨ isTagB (chars "h3") n) ∧
  (let t := pyStrip (nodeText n)
   (pyStarts (pyLower t) (chars "chapter ") ∧ hasSubstr t (chars ". ")) ∨
   (pyStarts (pyLower t) (chars "appendix ") ∧ hasSubstr t (chars ". ")) ∨
   hasSubstr (pyLower t) (chars "chapter by chapter") ∨
   pyStarts (pyLower t) (chars "part one:") ∨
   pyStarts (pyLower t) (chars "part two:") ∨
   hasSubstr (pyLower t) (chars "the appendices"))

/-- Pass 2 (lines 62-73): remove `p` elements containing a legacy-format
`h2`/`h3` descendant. -/
def legacyPass (ns : List Node) : List Node :=
  decomposeAllL
    (fun n => match n with
      | .elem t _ cs =>
        t == chars "p" ∧ (allNodesL cs).any legacyHeadingMatch
      | _ => false) ns

/-- Keyword-based removal of a whole tag kind (passes 3, 4, 5 and 12:
tables, paragraphs, centers, fonts). -/
def keywordPass (tag : List Char) (ns : List Node) : List Node :=
  decomposeAllL
    (fun n => isTagB tag n ∧ hasNavKeyword (pyLower (nodeText n))) ns

/-- Pass 6 (lines 94-96): remove `h2`/`h3` headings reading exactly
`table of contents`. -/
def tocPass (ns : List Node) : List Node :=
  decomposeAllL
    (fun n => (isTagB (chars "h2") n ∨ isTagB (chars "h3") n) ∧
      pyLower (pyStrip (nodeText n)) == chars "table of contents") ns

/-- Pass 7 (lines 99-102): unwrap anchors with external (`http://`,
`https://`, `mailto:`) targets. -/
def externalAnchorPass (ns : List Node) : List Node :=
  unwrapAllL
    (fun n => match n with
      | .elem t a _ =>
        t == chars "a" ∧
        (let href := getAttrD a (chars "href")
         pyStarts href (chars "http://") ∨ pyStarts href (chars "https://") ∨
         pyStarts href (chars "mailto:"))
      | _ => false) ns

/-- The navigation image file-name fragments of lines 107-108. -/
def navImgNames : List (List Char) :=
  [chars "hotkey.gif", chars "order_text.gif", chars "comment_text.gif",
   chars "backward.gif", chars "forward.gif", chars "division-white.gif"]

/-- Is this node an `img` whose `src` contains a navigation file name? -/
def isNavImg : Node → Bool
  | .elem t a _ =>
    t == chars "img" ∧
    navImgNames.any (fun nm => hasSubstr (pyLower (getAttrD a (chars "src"))) nm)
  | _ => false

mutual
/-- Pass 8 (lines 105-113): remove navigation images; when such an image is a
direct child of an `a`, the whole anchor is decomposed instead. -/
def imgPassN : Node → List Node
  | .elem t a cs =>
    if t == chars "a" ∧ cs.any isNavImg then []
    else if isNavImg (.elem t a cs) then []
    else [.elem t a (imgPassL cs)]
  | x => [x]
/-- `imgPassN` over a forest. -/
def imgPassL : List Node → List Node
  | [] => []
  | n :: ns => imgPassN n ++ imgPassL ns
end

/-- The copyright-text keywords of lines 138-140 (the first two contain the
uppercase `Â` (U+00C2) and therefore never match a lowercased text). -/
def textRemovalKeywords : List (List Char) :=
  [[Char.ofNat 0xC2, Char.ofNat 0xA9] ++ chars " 1997",
   chars "copyright " ++ [Char.ofNat 0xC2, Char.ofNat 0xA9],
   chars "all rights reserved", chars "beta version"]

/-- Pass 13 (lines 134-143): extract short text nodes holding copyright
notices. -/
def textRemovalPass (ns : List Node) : List Node :=
  decomposeAllL
    (fun n => match n with
      | .text s =>
        textRemovalKeywords.any (fun k => hasSubstr (pyLower s) k) ∧
        (pyStrip s).length < 200
      | _ => false) ns

/-- `get_text(strip=True)` is empty: every descendant string is whitespace. -/
def allTextBlank (n : Node) : Bool :=
  (allNodesN n).all (fun m => match m with | .text s => pyStrip s == [] | _ => true)

/-- Pass 14 (lines 146-148): remove `p`/`div`/`span` elements with no visible
text and no embedded image. -/
def emptyTagPass (ns : List Node) : List Node :=
  decomposeAllL
    (fun n => match n with
      | .elem t _ cs =>
        (t == chars "p" ∨ t == chars "div" ∨ t == chars "span") ∧
        allTextBlank (.elem t [] cs) ∧
        ¬ (allNodesL cs).any (isTagB (chars "img"))
      | _ => false) ns

/-- `remove_navigation_elements` (lines 12-148): the full pass sequence in
source order. -/
def remove_navigation_elements (ns : List Node) : List Node :=
  let d1 := summaryPass ns
  let d2 := legacyPass d1
  let d3 := keywordPass (chars "table") d2
  let d4 := keywordPass (chars "p") d3
  let d5 := keywordPass (chars "center") d4
  let d6 := tocPass d5
  let d7 := externalAnchorPass d6
  let d8 := imgPassL d7
  let d9 := decomposeAllL (isTagB (chars "hr")) d8
  let d10 := decomposeAllL (isTagB (chars "script")) d9
  let d11 := decomposeAllL (fun n => match n with | .comment _ => true | _ => false) d10
  let d12 := keywordPass (chars "font") d11
  let d13 := textRemovalPass d12
  emptyTagPass d13

/-! ### `clean_attributes` (clean_html.py lines 151-171) -/

/-- Delete the `tppabs` and `target` attributes (lines 155-160). -/
def dropObsoleteAttrs (attrs : List (List Char × List Char)) :
    List (List Char × List Char) :=
  attrs.filter (fun kv => !(kv.fst == chars "tppabs") && !(kv.fst == chars "target"))

/-- Overwrite the `href` attribute value (Python `tag['href'] = v`). -/
def setHref (attrs : List (List Char × List Char)) (v : List Char) :
    List (List Char × List Char) :=
  attrs.map (fun kv => if kv.fst == chars "href" then (kv.fst, v) else kv)

mutual
/-- `clean_attributes` on one node.  `find_all(True)` materialises every tag
first and each tag's treatment is local (attribute deletion, link rewriting,
unwrapping of external anchors), so the pass is this structural recursion. -/
def clean_attributes_node : Node → List Node
  | .elem t a cs =>
    let a2 := dropObsoleteAttrs a
    let cs2 := clean_attributes_list cs
    if t == chars "a" then
      match getAttr a (chars "href") with
      | some href =>
        if pyStarts href (chars "http://") ∨ pyStarts href (chars "https://") then
          cs2
        else if pyEnds href (chars ".html") then
          [.elem t (setHref a2 ((chars "#") ++ removeHtmlExt href)) cs2]
        else [.elem t a2 cs2]
      | none => [.elem t a2 cs2]
    else [.elem t a2 cs2]
  | x => [x]
/-- `clean_attributes_node` over a forest. -/
def clean_attributes_list : List Node → List Node
  | [] => []
  | n :: ns => clean_attributes_node n ++ clean_attributes_list ns
end

/-- `clean_attributes` (lines 151-171) on a whole document. -/
def clean_attributes (ns : List Node) : List Node := clean_attributes_list ns

/-! ### Paths into the tree

`fix_heading_hierarchy` needs `find_all` positions, `find_next` and in-place
mutation; these are modelled with access paths (lists of child indices). -/

/-- Replace the element at one index of a list. -/
def modifyIdx : List Node → Nat → (Node → Node) → List Node
  | [], _, _ => []
  | n :: ns, 0, f => f n :: ns
  | n :: ns, i + 1, f => n :: modifyIdx ns i f

/-- Apply a function to an element's child list, leaving strings alone. -/
def childMod (f : List Node → List Node) : Node → Node
  | .elem t a cs => .elem t a (f cs)
  | x => x

mutual
/-- Node of a forest at a path (empty path: no node). -/
def getAt? : List Node → List Nat → Option Node
  | _, [] => none
  | [], _ :: _ => none
  | n :: _, [0] => some n
  | n :: _, 0 :: j :: q => childAt n (j :: q)
  | _ :: ns, (i + 1) :: q => getAt? ns (i :: q)
/-- Node of a subtree at a non-empty relative path. -/
def childAt : Node → List Nat → Option Node
  | .elem _ _ cs, q => getAt? cs q
  | _, _ => none
end

/-- Replace the node at a path by `f` of it. -/
def modifyAt (ns : List Node) : List Nat → (Node → Node) → List Node
  | [], _ => ns
  | [i], f => modifyIdx ns i f
  | i :: p, f => modifyIdx ns i (childMod (fun cs => modifyAt cs p f))

/-- Remove the subtree at a path (`decompose`). -/
def removeAt (ns : List Node) : List Nat → List Node
  | [] => ns
  | [i] => ns.eraseIdx i
  | i :: p => modifyIdx ns i (childMod (fun cs => removeAt cs p))

/-- Increment the first step of a path (used to index into list tails). -/
def bumpHead : List Nat → List Nat
  | [] => []
  | j :: p => (j + 1) :: p

mutual
/-- Paths (in document order) of the nodes of a subtree satisfying `p`;
`[]` denotes the subtree root itself. -/
def findNode (p : Node → Bool) : Node → List (List Nat)
  | .elem t a cs => (if p (.elem t a cs) then [[]] else []) ++ findList p cs
  | x => if p x then [[]] else []
/-- Paths of the matching nodes of a forest, in document order. -/
def findList (p : Node → Bool) : List Node → List (List Nat)
  | [] => []
  | n :: ns => (findNode p n).map (List.cons 0) ++ (findList p ns).map bumpHead
end

/-- Strict document order on paths: a node precedes another iff its path is
lexicographically smaller, an ancestor preceding its descendants (this is the
order in which `find_next` searches). -/
def posLt : List Nat → List Nat → Bool
  | _, [] => false
  | [], _ :: _ => true
  | a :: as, b :: bs => if a < b then true else if b < a then false else posLt as bs

/-! ### `fix_heading_hierarchy` (clean_html.py lines 210-257)

The Python function re-parses the serialised fragment; the model works on the
tree directly (parsing the serialisation of a tree yields the tree back).
`chapter_num` arrives as its formatted string (`str(chapter_num)` is what the
f-strings interpolate); Python's falsy `None`/`''` are `none`/`some []`. -/

/-- `h1`/`h2`/`h3` search of line 220 (`soup.find(['h1', 'h2', 'h3'])`). -/
def isHeading123 (n : Node) : Bool :=
  isTagB (chars "h1") n ∨ isTagB (chars "h2") n ∨ isTagB (chars "h3") n

/-- Rename a heading to `h1` (`first_heading.name = 'h1'`, line 222). -/
def renameToH1 : Node → Node
  | .elem _ a cs => .elem (chars "h1") a cs
  | x => x

/-- The chapter-label test of line 231: an `h1` whose stripped text starts
with `chapter ` (lowercased) and has at most two whitespace tokens. -/
def chapterLabel (n : Node) : Bool :=
  isTagB (chars "h1") n ∧
  (let t := pyStrip (nodeText n)
   pyStarts (pyLower t) (chars "chapter ") ∧ (pySplit t).length ≤ 2)

/-- The appendix-label test of line 248. -/
def appendixLabel (n : Node) : Bool :=
  isTagB (chars "h1") n ∧
  (let t := pyStrip (nodeText n)
   pyStarts (pyLower t) (chars "appendix ") ∧ (pySplit t).length ≤ 2)

/-- `tag.string = s`: replace an element's contents by one string. -/
def setString (s : List Char) : Node → Node
  | .elem t a _ => .elem t a [.text s]
  | x => x

/-- Text of the node at a path (empty when the path is dead). -/
def textAtPath (ns : List Node) (p : List Nat) : List Char :=
  match getAt? ns p with
  | some n => nodeText n
  | none => []

/-- `tag.find_next('h2')`: first `h2` strictly after the given position in
document order. -/
def findNextH2 (ns : List Node) (L : List Nat) : Option (List Nat) :=
  (findList (isTagB (chars "h2")) ns).find? (fun q => posLt L q)

/-- `fix_heading_hierarchy(html_content, chapter_type, chapter_num)`
(lines 210-257), on the parsed fragment. -/
def fix_heading_hierarchy (ns : List Node) (chapter_type : List Char)
    (chapter_num : Option (List Char)) : List Node :=
  if chapter_type = chars "intro" ∨ chapter_type = chars "preface" then
    match findList isHeading123 ns with
    | [] => ns
    | p :: _ => modifyAt ns p renameToH1
  else if chapter_type = chars "chapter" ∧ chapter_num ≠ none ∧ chapter_num ≠ some [] then
    match findList chapterLabel ns with
    | [] => ns
    | L :: _ =>
      match findNextH2 ns L with
      | none => ns
      | some T =>
        let title := pyStrip (textAtPath ns T)
        let num := chapter_num.getD []
        removeAt (modifyAt ns T (setString (num ++ chars ". " ++ title))) L
  else if chapter_type = chars "appendix" ∧ chapter_num ≠ none ∧ chapter_num ≠ some [] then
    match findList appendixLabel ns with
    | [] => ns
    | L :: _ =>
      let num := chapter_num.getD []
      match findNextH2 ns L with
      | none => removeAt ns L
      | some T =>
        let title := pyStrip (textAtPath ns T)
        removeAt (modifyAt ns T (setString (chars "Appendix " ++ num ++ chars ". " ++ title))) L
  else ns

example :
    fix_heading_hierarchy
      [Node.elem (chars "h1") [] [Node.text (chars "Chapter One")],
       Node.elem (chars "h2") [] [Node.text (chars "Bytecodes")]]
      (chars "chapter") (some (chars "3"))
    = [Node.elem (chars "h2") [] [Node.text (chars "3. Bytecodes")]] := by rfl

example :
    fix_heading_hierarchy
      [Node.elem (chars "h1") [] [Node.text (chars "Appendix A")],
       Node.elem (chars "h2") [] [Node.text (chars "Tools")]]
      (chars "appendix") (some (chars "B"))
    = [Node.elem (chars "h2") [] [Node.text (chars "Appendix B. Tools")]] := by rfl

example :
    fix_heading_hierarchy
      [Node.elem (chars "h2") [] [Node.text (chars "Hello")]]
      (chars "intro") none
    = [Node.elem (chars "h1") [] [Node.text (chars "Hello")]] := by rfl

/-! ### `process_html_file` (clean_html.py lines 260-369), tree-level part

File reading / charset fallback is modelled separately below (`readHtmlOpt`);
`html.unescape` and the serialisation round trips are the identity on the
tree (inputs are modelled as already-parsed, entity-free trees). -/

/-- `s.rstrip('&')`. -/
def rstripAmp (s : List Char) : List Char :=
  (s.reverse.dropWhile (fun c => c = '&')).reverse

mutual
/-- Apply a function to every descendant `NavigableString`
(`for elem in tag.find_all(string=True): elem.replace_with(f(elem))`). -/
def mapTextsN (f : List Char → List Char) : Node → Node
  | .text s => .text (f s)
  | .comment s => .comment s
  | .elem t a cs => .elem t a (mapTextsL f cs)
/-- `mapTextsN` over a forest. -/
def mapTextsL (f : List Char → List Char) : List Node → List Node
  | [] => []
  | n :: ns => mapTextsN f n :: mapTextsL f ns
end

/-- bs4 `tag.string`: the single string of a chain of single children. -/
def tdString? : Node → Option (List Char)
  | .elem _ _ [.text s] => some s
  | .elem _ _ [.comment s] => some s
  | .elem _ _ [.elem t a cs] => tdString? (.elem t a cs)
  | _ => none

/-- `td.string = s` / clear-and-set used by the archmage `&#9;` repair. -/
def setContents (s : List Char) : Node → Node
  | .elem t a _ => .elem t a [.text s]
  | x => x

/-- Lines 313-320: strip the trailing `&` of the first cell. -/
def stripAmpTd (td : Node) : Node :=
  match tdString? td with
  | some s =>
    if s ≠ [] then setContents (rstripAmp s) td
    else mapTextsN (fun t => if pyEnds t (chars "&") then rstripAmp t else t) td
  | none => mapTextsN (fun t => if pyEnds t (chars "&") then rstripAmp t else t) td

/-- Lines 322-330: strip the leading `#...;` of the next cell (`ntxt` is the
cell text read before any mutation). -/
def stripEntityTd (ntxt : List Char) (td : Node) : Node :=
  let entEnd := (ntxt.findIdx (fun c => c = ';')) + 1
  match tdString? td with
  | some s =>
    if s ≠ [] then setContents (ntxt.drop entEnd) td
    else mapTextsN (fun t =>
      if t.head? = some '#' ∧ (t.take 5).contains ';' then
        t.drop ((t.findIdx (fun c => c = ';')) + 1)
      else t) td
  | none => mapTextsN (fun t =>
      if t.head? = some '#' ∧ (t.take 5).contains ';' then
        t.drop ((t.findIdx (fun c => c = ';')) + 1)
      else t) td

/-- Children list containing the node at `p`, with its index there. -/
def siblingsAt (doc : List Node) (p : List Nat) : Option (List Node × Nat) :=
  match p with
  | [] => none
  | [i] => some (doc, i)
  | _ =>
    match p.getLast? with
    | none => none
    | some i =>
      match getAt? doc p.dropLast with
      | some (.elem _ _ cs) => some (cs, i)
      | _ => none

/-- Index of the next `td` sibling after index `i`
(`td.find_next_sibling('td')`). -/
def nextTdIdx (cs : List Node) (i : Nat) : Option Nat :=
  ((List.range cs.length).filter (fun j =>
    decide (i < j) && (match cs[j]? with
                       | some n => isTagB (chars "td") n
                       | none => false))).head?

/-- One iteration of the archmage `&#9;` repair loop (lines 303-330) for the
`td` at path `p` of the current document (node identity is tracked by the
original-tree path, which is stable here because the repair only rewrites the
contents of `td` cells). -/
def tdFixStep (doc : List Node) (p : List Nat) : List Node :=
  match getAt? doc p with
  | some td =>
    let txt := nodeText td
    if pyEnds txt (chars "&") then
      match siblingsAt doc p with
      | some sibs =>
        match nextTdIdx sibs.fst sibs.snd with
        | some j =>
          let q := p.dropLast ++ [j]
          match getAt? doc q with
          | some ntd =>
            let ntxt := nodeText ntd
            if ntxt.head? = some '#' ∧ (ntxt.take 5).contains ';' then
              modifyAt (modifyAt doc p stripAmpTd) q (stripEntityTd ntxt)
            else doc
          | none => doc
        | none => doc
      | none => doc
    else doc
  | none => doc

/-- The archmage `&#9;` repair (lines 303-330). -/
def tdFix (doc : List Node) : List Node :=
  (findList (isTagB (chars "td")) doc).foldl tdFixStep doc

/-- The corrupted-character and tab replacements of lines 333-350 on one
string (the five `str.replace` calls in source order, then tabs to spaces). -/
def charFixText (s : List Char) : List Char :=
  let f1 := fixPair (Char.ofNat 0xC3) (Char.ofNat 0xAD) [Char.ofNat 0x27] s
  let f2 := fixPair (Char.ofNat 0xC3) (Char.ofNat 0xAB) [Char.ofNat 0x22] f1
  let f3 := fixPair (Char.ofNat 0xC3) (Char.ofNat 0xA9) [Char.ofNat 0x22] f2
  let f4 := fixPair (Char.ofNat 0xC3) (Char.ofNat 0xB3) [Char.ofNat 0x27] f3
  let f5 := fixPair (Char.ofNat 0xC3) (Char.ofNat 0xBB)
    [Char.ofNat 0xE2, Char.ofNat 0x20AC, Char.ofNat 0x201D] f4
  f5.map (fun c => if c = '\t' then ' ' else c)

/-- Lines 333-350 over the whole tree. -/
def charFix (doc : List Node) : List Node := mapTextsL charFixText doc

/-- First node matching a predicate (`soup.find(...)`). -/
def findFirst? (p : Node → Bool) (ns : List Node) : Option Node :=
  (allNodesL ns).find? p

/-- `extract_content` (lines 174-207): clean, then return the body's direct
children, dropping whitespace-only strings and `script`/`style` elements
(`none` when there is no body; the spacing regex and entity decoding of
lines 198-205 act on the serialised string and are the identity on the
tree). -/
def extract_content (ns : List Node) : Option (List Node) :=
  let d := clean_attributes (remove_navigation_elements ns)
  match findFirst? (isTagB (chars "body")) d with
  | some (.elem _ _ cs) =>
    some (cs.filterMap (fun c =>
      match c with
      | .text s => if pyStrip s ≠ [] then some (.text s) else none
      | .comment s => if pyStrip s ≠ [] then some (.text s) else none
      | .elem t a cs2 =>
        if t == chars "script" ∨ t == chars "style" then none
        else some (.elem t a cs2)))
  | _ => none

/-- `process_html_file` (lines 260-369) from the parsed tree on: returns the
anchored fragment, or `none` when no content was extracted (the Python
function returns `''` then). -/
def process_html_file (stem : List Char) (ns : List Node) (chapter_type : List Char)
    (chapter_num : Option (List Char)) : Option (List Node) :=
  match extract_content (charFix (tdFix ns)) with
  | none => none
  | some content =>
    if content.isEmpty then none
    else
      some [Node.elem (chars "div") [(chars "id", stem)]
        (fix_heading_hierarchy content chapter_type chapter_num)]

/-! ### `combine_html_files` (clean_html.py lines 372-464) -/

/-- Decimal string of a chapter number. -/
def numStr (n : Nat) : List Char := (toString n).data

/-- Two-digit formatting `f'chap{i:02d}.html'`. -/
def pad2 (n : Nat) : List Char := if n < 10 then '0' :: numStr n else numStr n

/-- The fixed file order of lines 377-388: `intro.html`, `preface.html`,
`chap01.html` .. `chap20.html`, `appa.html`, `appb.html`, `appc.html`, each
with its document type and formatted chapter number/letter. -/
def file_order : List (List Char × List Char × Option (List Char)) :=
  [(chars "intro.html", chars "intro", none),
   (chars "preface.html", chars "preface", none)]
  ++ ((List.range 20).map (fun k =>
        (chars "chap" ++ pad2 (k + 1) ++ chars ".html", chars "chapter", some (numStr (k + 1)))))
  ++ [(chars "appa.html", chars "appendix", some (chars "A")),
      (chars "appb.html", chars "appendix", some (chars "B")),
      (chars "appc.html", chars "appendix", some (chars "C"))]

/-- The expected file names, in enumeration order. -/
def expectedNames : List (List Char) := file_order.map (fun e => e.fst)

/-- Python `Path(fn).stem`: the name up to its last `.` (the whole name when
there is no suffix). -/
def stemOf (fn : List Char) : List Char :=
  match fn.reverse.dropWhile (fun c => c ≠ '.') with
  | [] => fn
  | _ :: rest => if rest = [] then fn else rest.reverse

/-- The expected anchor identifiers, in enumeration order. -/
def expectedStems : List (List Char) := file_order.map (fun e => stemOf e.fst)

/-- An input directory: file name to parsed document (absent files map to
`none`). -/
def Dir : Type := List Char → Option (List Node)

/-- `combine_html_files` (lines 372-464): the ordered fragment list that is
joined into the static template (missing files are skipped with a warning,
and a file processed to empty content contributes nothing). -/
def combine_html_files (dir : Dir) : List (List Node) :=
  file_order.filterMap (fun e =>
    match dir e.fst with
    | some doc => process_html_file (stemOf e.fst) doc e.snd.fst e.snd.snd
    | none => none)

/-- Anchor id of a produced fragment. -/
def fragId (frag : List Node) : Option (List Char) :=
  match frag with
  | [.elem _ a _] => getAttr a (chars "id")
  | _ => none

/-! ### Charset fallback of `process_html_file` (clean_html.py lines 264-293)

Bytes are naturals < 256.  `decodeWith` models Python's codecs for the
encoding names this code can meet; an unknown name behaves like the
`LookupError` the code catches (decode failure). -/

/-- Is `b` a UTF-8 continuation byte? -/
def isCont (b : Nat) : Bool := 0x80 ≤ b ∧ b ≤ 0xBF

/-- Strict UTF-8 decoding (Python `bytes.decode('utf-8')`): rejects invalid
leads, truncated sequences, overlong forms, surrogates and values beyond
`U+10FFFF`. -/
def utf8Decode : List Nat → Option (List Char)
  | [] => some []
  | b :: rest =>
    if b < 0x80 then (utf8Decode rest).map (fun l => Char.ofNat b :: l)
    else if 0xC2 ≤ b ∧ b ≤ 0xDF then
      match rest with
      | b2 :: rest2 =>
        if isCont b2 then
          (utf8Decode rest2).map (fun l => Char.ofNat ((b - 0xC0) * 64 + (b2 - 0x80)) :: l)
        else none
      | [] => none
    else if 0xE0 ≤ b ∧ b ≤ 0xEF then
      match rest with
      | b2 :: b3 :: rest3 =>
        if (if b = 0xE0 then 0xA0 ≤ b2 ∧ b2 ≤ 0xBF
            else if b = 0xED then 0x80 ≤ b2 ∧ b2 ≤ 0x9F
            else isCont b2) ∧ isCont b3 then
          (utf8Decode rest3).map (fun l =>
            Char.ofNat ((b - 0xE0) * 4096 + (b2 - 0x80) * 64 + (b3 - 0x80)) :: l)
        else none
      | _ => none
    else if 0xF0 ≤ b ∧ b ≤ 0xF4 then
      match rest with
      | b2 :: b3 :: b4 :: rest4 =>
        if (if b = 0xF0 then 0x90 ≤ b2 ∧ b2 ≤ 0xBF
            else if b = 0xF4 then 0x80 ≤ b2 ∧ b2 ≤ 0x8F
            else isCont b2) ∧ isCont b3 ∧ isCont b4 then
          (utf8Decode rest4).map (fun l =>
            Char.ofNat ((b - 0xF0) * 262144 + (b2 - 0x80) * 4096 + (b3 - 0x80) * 64 + (b4 - 0x80)) :: l)
        else none
      | _ => none
    else none

/-- `bytes.decode('iso-8859-1')` / `'latin1'`: total, byte-to-codepoint. -/
def isoDecode (bs : List Nat) : List Char := bs.map Char.ofNat

/-- The Windows-1252 mapping of one byte (`none` for the five undefined
bytes, on which Python's `cp1252` codec raises). -/
def cp1252Byte (b : Nat) : Option Char :=
  if b < 0x80 ∨ 0xA0 ≤ b then some (Char.ofNat b)
  else match b with
  | 0x80 => some (Char.ofNat 0x20AC) | 0x82 => some (Char.ofNat 0x201A)
  | 0x83 => some (Char.ofNat 0x0192) | 0x84 => some (Char.ofNat 0x201E)
  | 0x85 => some (Char.ofNat 0x2026) | 0x86 => some (Char.ofNat 0x2020)
  | 0x87 => some (Char.ofNat 0x2021) | 0x88 => some (Char.ofNat 0x02C6)
  | 0x89 => some (Char.ofNat 0x2030) | 0x8A => some (Char.ofNat 0x0160)
  | 0x8B => some (Char.ofNat 0x2039) | 0x8C => some (Char.ofNat 0x0152)
  | 0x8E => some (Char.ofNat 0x017D) | 0x91 => some (Char.ofNat 0x2018)
  | 0x92 => some (Char.ofNat 0x2019) | 0x93 => some (Char.ofNat 0x201C)
  | 0x94 => some (Char.ofNat 0x201D) | 0x95 => some (Char.ofNat 0x2022)
  | 0x96 => some (Char.ofNat 0x2013) | 0x97 => some (Char.ofNat 0x2014)
  | 0x98 => some (Char.ofNat 0x02DC) | 0x99 => some (Char.ofNat 0x2122)
  | 0x9A => some (Char.ofNat 0x0161) | 0x9B => some (Char.ofNat 0x203A)
  | 0x9C => some (Char.ofNat 0x0153) | 0x9E => some (Char.ofNat 0x017E)
  | _ => none

/-- `bytes.decode('cp1252')`. -/
def cp1252Decode (bs : List Nat) : Option (List Char) := bs.mapM cp1252Byte

/-- `bytes.decode('ascii')`. -/
def asciiDecode (bs : List Nat) : Option (List Char) :=
  if bs.all (fun b => b < 0x80) then some (bs.map Char.ofNat) else none

/-- Decode with a named codec; names outside the modelled set behave as the
`LookupError` that line 287 catches. -/
def decodeWith (enc : List Char) (bs : List Nat) : Option (List Char) :=
  if enc = chars "utf-8" then utf8Decode bs
  else if enc = chars "iso-8859-1" ∨ enc = chars "latin1" ∨ enc = chars "latin-1" then
    some (isoDecode bs)
  else if enc = chars "cp1252" ∨ enc = chars "windows-1252" then cp1252Decode bs
  else if enc = chars "ascii" ∨ enc = chars "us-ascii" then asciiDecode bs
  else none

/-- The candidate list of lines 277-280: the detected meta-tag charset (if
any), then `utf-8`, `iso-8859-1`, `cp1252`, `latin1`. -/
def encodingCandidates (detected : Option (List Char)) : List (List Char) :=
  (match detected with | some e => [e] | none => []) ++
  [chars "utf-8", chars "iso-8859-1", chars "cp1252", chars "latin1"]

/-- The `for encoding in encodings` loop body: first successful decode
(`break`), `continue` on failure. -/
def tryEncodings (bs : List Nat) : List (List Char) → Option (List Char)
  | [] => none
  | e :: es =>
    match decodeWith e bs with
    | some s => some s
    | none => tryEncodings bs es

/-- The fallback loop of lines 282-288: first encoding that decodes. -/
def readHtmlOpt (detected : Option (List Char)) (bs : List Nat) : Option (List Char) :=
  tryEncodings bs (encodingCandidates detected)

/-- Lines 282-293 as a whole: the loop, then the `errors='replace'`
last resort (`iso-8859-1` maps every byte, so replacement never fires). -/
def readHtml (detected : Option (List Char)) (bs : List Nat) : List Char :=
  (readHtmlOpt detected bs).getD (isoDecode bs)

/-! ### `extract_chapter_content` (download_jls.py lines 14-26) -/

/-- The wrapper-opening literal of the chapter regex. -/
def jlsOpener : List Char := chars "<div lang=\"en\" class=\"chapter\">"

/-- Does `</div>` + `\s*` + `<div class="navfooter">` match here?  `\s*` is
modelled by the same backtracking the regex engine performs. -/
def wsThenNavfooter : List Char → Bool
  | [] => false
  | c :: rest =>
    if (chars "<div class=\"navfooter\">").isPrefixOf (c :: rest) then true
    else if isPySpace c then wsThenNavfooter rest else false

/-- Does the closing pattern of the chapter regex match at this position? -/
def jlsCloserHere (l : List Char) : Bool :=
  if (chars "</div>").isPrefixOf l then wsThenNavfooter (l.drop 6)
  else false

/-- Non-greedy `(.*?)`: shortest content prefix followed by the closing
pattern (`none` when no closer follows). -/
def grabContent : List Char → Option (List Char)
  | [] => none
  | c :: rest =>
    if jlsCloserHere (c :: rest) then some []
    else (grabContent rest).map (fun cs2 => c :: cs2)

/-- `re.search` with a literal-led pattern: leftmost opener position whose
remainder completes the match. -/
def scanOpeners : List Char → Option (List Char)
  | [] => none
  | c :: rest =>
    if jlsOpener.isPrefixOf (c :: rest) then
      match grabContent ((c :: rest).drop jlsOpener.length) with
      | some content => some content
      | none => scanOpeners rest
    else scanOpeners rest

/-- Minimal skip to just past the next `</div>` (for the TOC `re.sub`). -/
def grabToDivEnd : List Char → Option (List Char)
  | [] => none
  | c :: rest =>
    if (chars "</div>").isPrefixOf (c :: rest) then some ((c :: rest).drop 6)
    else grabToDivEnd rest

/-- `re.sub(r'<div class="toc">.*?</div>', '', content, flags=re.DOTALL)`,
fuel-indexed structurally: remove every shortest TOC block, resuming after
each replacement.  Every step strictly shortens the remaining input, so the
`0` arm is unreachable when the fuel starts at the input length. -/
def removeTocF : Nat → List Char → List Char
  | _, [] => []
  | 0, l => l
  | fuel + 1, c :: rest =>
    if (chars "<div class=\"toc\">").isPrefixOf (c :: rest) then
      match grabToDivEnd ((c :: rest).drop 17) with
      | some rest2 => removeTocF fuel rest2
      | none => c :: removeTocF fuel rest
    else c :: removeTocF fuel rest

/-- The TOC removal with enough fuel for the whole input. -/
def removeToc (l : List Char) : List Char := removeTocF l.length l

/-- `extract_chapter_content` (download_jls.py lines 14-26). -/
def extract_chapter_content (html : List Char) : Option (List Char) :=
  match scanOpeners html with
  | none => none
  | some content => some (removeToc content)

/-- The 19 chapter files of download_jls.py lines 32-52. -/
def jlsChapters : List (List Char) :=
  (List.range 19).map (fun k => chars "jls-" ++ numStr (k + 1) ++ chars ".html")

/-- The `all_content` accumulation of `main` (lines 57-70): one entry per
chapter whose page yields non-empty extracted content (`if content:` is
Python truthiness, so empty extracted content is also skipped). -/
def jlsAllContent (pages : List Char → List Char) : List (List Char) :=
  jlsChapters.filterMap (fun fn =>
    match extract_chapter_content (pages fn) with
    | some c => if c.isEmpty then none else some c
    | none => none)

example :
    remove_navigation_elements
      [Node.elem (chars "div") [] [Node.text (chars "mcgraw-hill")]]
    = [Node.elem (chars "div") [] [Node.text (chars "mcgraw-hill")]] := by rfl

example :
    remove_navigation_elements
      [Node.elem (chars "p") [] [Node.text (chars "Visit mcgraw-hill for orders")]]
    = [] := by rfl

example :
    remove_navigation_elements
      [Node.elem (chars "table") [] [Node.elem (chars "tr") []
        [Node.elem (chars "td") [] [Node.text (chars "Copyright 1997")]]]]
    = [] := by rfl

example :
    clean_attributes
      [Node.elem (chars "a") [(chars "href", chars "jvm.html")] [Node.text (chars "x")]]
    = [Node.elem (chars "a") [(chars "href", chars "#jvm")] [Node.text (chars "x")]] := by rfl

example :
    combine_html_files (fun fn =>
      if fn = chars "intro.html" then
        some [Node.elem (chars "body") [] [Node.elem (chars "h2") [] [Node.text (chars "Hello")]]]
      else none)
    = [[Node.elem (chars "div") [(chars "id", chars "intro")]
         [Node.elem (chars "h1") [] [Node.text (chars "Hello")]]]] := by rfl

example : extract_chapter_content (chars "<html>no wrapper here</html>") = none := by rfl

example :
    extract_chapter_content
      (chars "x<div lang=\"en\" class=\"chapter\">BODY</div> <div class=\"navfooter\">y")
    = some (chars "BODY") := by rfl

example : readHtml none [0xFF, 0x41] = [Char.ofNat 0xFF, 'A'] := by rfl
example : utf8Decode [0xFF] = none := by rfl
example : utf8Decode [0x41, 0xC3, 0xA9] = some ['A', Char.ofNat 0xE9] := by rfl

/-! ### Claim C7: missing wrapper marker is non-fatal and contributes nothing -/

theorem scanOpeners_eq_none (l : List Char) (h : hasSubstr l jlsOpener = false) :
    scanOpeners l = none := by
  induction l with
  | nil => rfl
  | cons c rest ih =>
    rw [hasSubstr] at h
    split at h
    · cases h
    · rw [scanOpeners]
      split
      · simp_all
      · exact ih h

theorem filterMap_erase_of_none {α β : Type} [BEq α] [LawfulBEq α]
    (f : α → Option β) (l : List α) (a : α) (h : f a = none) :
    l.filterMap f = (l.erase a).filterMap f := by
  induction l with
  | nil => rfl
  | cons x xs ih =>
    rw [List.erase_cons]
    by_cases hx : x == a
    · simp only [hx, if_pos]
      have : x = a := eq_of_beq hx
      subst this
      simp [List.filterMap_cons, h]
    · simp only [hx]
      simp only [Bool.false_eq_true, if_false, List.filterMap_cons]
      cases f x <;> simp [ih]

/-- C7: for every fetched page on which the expected chapter wrapper marker
does not match, `extract_chapter_content` yields no content (in particular
whenever the opening wrapper literal does not occur at all), and the
`main` accumulation for that chapter is exactly the accumulation with the
chapter removed — the failing chapter contributes nothing and the remaining
chapters are processed unchanged. -/
theorem C7_wrapper_miss_skipped (pages : List Char → List Char) (fn : List Char)
    (hmem : fn ∈ jlsChapters)
    (hfail : extract_chapter_content (pages fn) = none) :
    (∀ html, hasSubstr html jlsOpener = false → extract_chapter_content html = none) ∧
    jlsAllContent pages =
      (jlsChapters.erase fn).filterMap (fun g =>
        match extract_chapter_content (pages g) with
        | some c => if c.isEmpty then none else some c
        | none => none) := by
  constructor
  · intro html hh
    unfold extract_chapter_content
    rw [scanOpeners_eq_none html hh]
  · unfold jlsAllContent
    exact filterMap_erase_of_none _ _ fn (by rw [hfail])

/-- Witness for C7 at a concrete page set: every page is `<html></html>`,
which lacks the wrapper marker, so chapter 1 contributes nothing. -/
theorem C7_wrapper_miss_skipped_witness :
    (∀ html, hasSubstr html jlsOpener = false → extract_chapter_content html = none) ∧
    jlsAllContent (fun _ => chars "<html></html>") =
      (jlsChapters.erase (chars "jls-1.html")).filterMap (fun g =>
        match extract_chapter_content ((fun _ => chars "<html></html>") g) with
        | some c => if c.isEmpty then none else some c
        | none => none) :=
  C7_wrapper_miss_skipped (fun _ => chars "<html></html>") (chars "jls-1.html")
    (by decide) (by rfl)

/-! ### Claim C5: the charset fallback chain never fails -/

/-- C5: for every input byte sequence and every (possibly failing or unknown)
meta-tag charset, the fallback loop of `process_html_file` succeeds — some
candidate encoding decodes the bytes, so decoding is never fatal and the
byte-preserving `errors='replace'` last resort of lines 290-293 is never
required; moreover when the detected charset and `utf-8` both fail, the
result is exactly the (total) `iso-8859-1` decode, the next candidate in
order. -/
theorem C5_encoding_fallback (detected : Option (List Char)) (bs : List Nat) :
    (readHtmlOpt detected bs).isSome = true ∧
    ((∀ e, detected = some e → decodeWith e bs = none) → utf8Decode bs = none →
      readHtmlOpt detected bs = some (isoDecode bs)) ∧
    readHtml detected bs = (readHtmlOpt detected bs).getD (isoDecode bs) := by
  have hiso : decodeWith (chars "iso-8859-1") bs = some (isoDecode bs) := rfl
  have hutf : decodeWith (chars "utf-8") bs = utf8Decode bs := rfl
  refine ⟨?_, ?_, rfl⟩
  · cases detected with
    | none =>
      simp only [readHtmlOpt, encodingCandidates, List.nil_append, tryEncodings, hutf, hiso]
      cases hu : utf8Decode bs <;> simp
    | some e =>
      simp only [readHtmlOpt, encodingCandidates, List.cons_append, List.nil_append,
        tryEncodings, hutf, hiso]
      cases hd : decodeWith e bs <;> cases hu : utf8Decode bs <;> simp
  · intro hdet hu
    cases detected with
    | none =>
      simp only [readHtmlOpt, encodingCandidates, List.nil_append, tryEncodings, hutf, hiso, hu]
    | some e =>
      have hd : decodeWith e bs = none := hdet e rfl
      simp only [readHtmlOpt, encodingCandidates, List.cons_append, List.nil_append,
        tryEncodings, hutf, hiso, hu, hd]

/-- Witness for C5 at the concrete byte sequence `[0xFF]` (invalid UTF-8,
no detected charset): decoding still succeeds, via `iso-8859-1`. -/
theorem C5_encoding_fallback_witness :
    (readHtmlOpt none [0xFF]).isSome = true ∧
    readHtmlOpt none [0xFF] = some (isoDecode [0xFF]) :=
  ⟨(C5_encoding_fallback none [0xFF]).1,
   (C5_encoding_fallback none [0xFF]).2.1 (fun e he => by cases he) (by rfl)⟩

/-! ### Claims C2/C10: internal link rewriting in `clean_attributes` -/

theorem isPrefixOf_html_iff (l : List Char) :
    (chars ".html").isPrefixOf l = true ↔ ∃ t, l = '.' :: 'h' :: 't' :: 'm' :: 'l' :: t := by
  constructor
  · intro h
    rcases l with _ | ⟨c1, _ | ⟨c2, _ | ⟨c3, _ | ⟨c4, _ | ⟨c5, t⟩⟩⟩⟩⟩ <;>
      simp only [chars, String.data, List.isPrefixOf, Bool.and_eq_true, beq_iff_eq] at h
    · cases h
    · simp at h
    · simp at h
    · simp at h
    · simp at h
    · obtain ⟨h1, h2, h3, h4, h5, -⟩ := h
      subst h1; subst h2; subst h3; subst h4; subst h5
      exact ⟨t, rfl⟩
  · rintro ⟨t, rfl⟩
    simp [chars, List.isPrefixOf, String.data]

theorem removeHtmlExt_of_isPrefix (l : List Char)
    (h : (chars ".html").isPrefixOf l = true) :
    removeHtmlExt l = removeHtmlExt (l.drop 5) := by
  rw [isPrefixOf_html_iff] at h
  obtain ⟨t, rfl⟩ := h
  rfl

theorem removeHtmlExt_cons_of_not (c : Char) (l : List Char)
    (h : ¬ (chars ".html").isPrefixOf (c :: l) = true) :
    removeHtmlExt (c :: l) = c :: removeHtmlExt l := by
  rw [removeHtmlExt.eq_def]
  split
  · rename_i rest heq
    exact absurd ((isPrefixOf_html_iff _).2 ⟨rest, heq⟩) h
  · rename_i c2 rest heq
    injection heq with h1 h2
    subst h1; subst h2; rfl
  · rename_i heq
    cases heq

theorem noStraddle (c : Char) (rest : List Char)
    (h : ¬ (chars ".html").isPrefixOf (c :: rest) = true) :
    ¬ (chars ".html").isPrefixOf (c :: (rest ++ chars ".html")) = true := by
  intro hx
  rw [isPrefixOf_html_iff] at hx
  obtain ⟨t, heq⟩ := hx
  rcases rest with _ | ⟨r1, _ | ⟨r2, _ | ⟨r3, _ | ⟨r4, rest4⟩⟩⟩⟩
  · simp [chars, String.data] at heq
  · simp [chars, String.data] at heq
  · simp [chars, String.data] at heq
  · simp [chars, String.data] at heq
  · simp only [List.cons_append] at heq
    injection heq with e1 heq; injection heq with e2 heq; injection heq with e3 heq
    injection heq with e4 heq; injection heq with e5 heq
    subst e1; subst e2; subst e3; subst e4; subst e5
    exact h ((isPrefixOf_html_iff _).2 ⟨rest4, rfl⟩)

/-- When the only `.html` occurrence of `href` is the trailing extension,
`str.replace('.html', '')` yields exactly the stem. -/
theorem removeHtmlExt_single (stem : List Char)
    (h : hasSubstr stem (chars ".html") = false) :
    removeHtmlExt (stem ++ chars ".html") = stem := by
  induction stem with
  | nil => rfl
  | cons c rest ih =>
    rw [hasSubstr] at h
    split at h
    · cases h
    · rename_i hpre
      rw [List.cons_append, removeHtmlExt_cons_of_not c _ (noStraddle c rest hpre)]
      rw [ih h]

theorem hasSubstr_hash_cons (stem : List Char)
    (h : hasSubstr stem (chars ".html") = false) :
    hasSubstr ('#' :: stem) (chars ".html") = false := by
  rw [hasSubstr]
  split
  · rename_i hpre
    rw [isPrefixOf_html_iff] at hpre
    obtain ⟨t, heq⟩ := hpre
    cases heq
  · exact h

theorem getAttr_cons (key val : List Char) (rest : List (List Char × List Char))
    (k : List Char) :
    getAttr ((key, val) :: rest) k = if key == k then some val else getAttr rest k := by
  simp only [getAttr, List.find?_cons]
  cases hb : (key == k) <;> simp_all

theorem getAttr_setHref_dropObsolete (attrs : List (List Char × List Char))
    (href v : List Char)
    (h : getAttr attrs (chars "href") = some href) :
    getAttr (setHref (dropObsoleteAttrs attrs) v) (chars "href") = some v := by
  induction attrs with
  | nil => simp [getAttr] at h
  | cons kv rest ih =>
    rcases kv with ⟨key, val⟩
    rw [getAttr_cons] at h
    by_cases hb : (key == chars "href") = true
    · have hfst : key = chars "href" := eq_of_beq hb
      subst hfst
      have hkeep : dropObsoleteAttrs ((chars "href", val) :: rest)
          = (chars "href", val) :: dropObsoleteAttrs rest := by
        simp only [dropObsoleteAttrs, List.filter_cons]
        split
        · rfl
        · rename_i hc; exact absurd rfl hc
      rw [hkeep]
      have hset : setHref ((chars "href", val) :: dropObsoleteAttrs rest) v
          = (chars "href", v) :: setHref (dropObsoleteAttrs rest) v := by
        simp [setHref]
      rw [hset, getAttr_cons, if_pos (by decide)]
    · rw [if_neg (by simpa using hb)] at h
      have ih2 := ih h
      by_cases hkv : (!(key == chars "tppabs") && !(key == chars "target")) = true
      · have hkeep : dropObsoleteAttrs ((key, val) :: rest)
            = (key, val) :: dropObsoleteAttrs rest := by
          simp only [dropObsoleteAttrs, List.filter_cons]
          split <;> simp_all
        rw [hkeep]
        have hset : setHref ((key, val) :: dropObsoleteAttrs rest) v
            = (key, val) :: setHref (dropObsoleteAttrs rest) v := by
          simp only [setHref, List.map_cons]
          rw [if_neg (by simpa using hb)]
        rw [hset, getAttr_cons, if_neg (by simpa using hb)]
        exact ih2
      · have hdrop : dropObsoleteAttrs ((key, val) :: rest) = dropObsoleteAttrs rest := by
          simp only [dropObsoleteAttrs, List.filter_cons]
          split <;> simp_all
        rw [hdrop]
        exact ih2

/-- C10: for every anchor whose `href` ends in `.html` and is not external,
`clean_attributes` sets the href to `'#' + href.replace('.html', '')`, which
removes every left-to-right occurrence of `.html` — not only the trailing
extension: `jvm.html.html` loses both occurrences (becoming `#jvm`) and an
interior `.html` in the stem is removed as well (`x.htmly.html` → `xy`). -/
theorem C10_removes_every_occurrence (attrs : List (List Char × List Char))
    (children : List Node) (href : List Char)
    (hhref : getAttr attrs (chars "href") = some href)
    (h1 : pyStarts href (chars "http://") = false)
    (h2 : pyStarts href (chars "https://") = false)
    (h3 : pyEnds href (chars ".html") = true) :
    (∃ a2, clean_attributes_node (Node.elem (chars "a") attrs children)
        = [Node.elem (chars "a") a2 (clean_attributes_list children)] ∧
      getAttr a2 (chars "href") = some ((chars "#") ++ removeHtmlExt href)) ∧
    removeHtmlExt (chars "jvm.html.html") = chars "jvm" ∧
    removeHtmlExt (chars "x.htmly.html") = chars "xy" := by
  refine ⟨⟨setHref (dropObsoleteAttrs attrs) ((chars "#") ++ removeHtmlExt href),
          ?_, getAttr_setHref_dropObsolete attrs href _ hhref⟩, rfl, rfl⟩
  simp only [clean_attributes_node, hhref, h1, h2, h3]
  simp

/-- Witness for C10 at the anchor `<a href="jvm.html.html">x</a>`. -/
theorem C10_removes_every_occurrence_witness :
    (∃ a2, clean_attributes_node
        (Node.elem (chars "a") [(chars "href", chars "jvm.html.html")] [Node.text (chars "x")])
        = [Node.elem (chars "a") a2 (clean_attributes_list [Node.text (chars "x")])] ∧
      getAttr a2 (chars "href")
        = some ((chars "#") ++ removeHtmlExt (chars "jvm.html.html"))) ∧
    removeHtmlExt (chars "jvm.html.html") = chars "jvm" ∧
    removeHtmlExt (chars "x.htmly.html") = chars "xy" :=
  C10_removes_every_occurrence [(chars "href", chars "jvm.html.html")]
    [Node.text (chars "x")] (chars "jvm.html.html") rfl rfl rfl rfl

/-- Counterexample to C2 as stated: the internal link
`<a href=".h.htmltml.html">` (href ends in `.html`, not external) is
rewritten to href `#.html`: removing the two `.html` occurrences juxtaposes
`.h` and `tml` into a fresh `.html`, so the rewritten href still ends in the
`.html` extension — "no such link retains the '.html' extension" is false. -/
theorem C2_counterexample :
    pyEnds (chars ".h.htmltml.html") (chars ".html") = true ∧
    pyStarts (chars ".h.htmltml.html") (chars "http://") = false ∧
    pyStarts (chars ".h.htmltml.html") (chars "https://") = false ∧
    clean_attributes
      [Node.elem (chars "a") [(chars "href", chars ".h.htmltml.html")] [Node.text (chars "x")]]
      = [Node.elem (chars "a") [(chars "href", chars "#.html")] [Node.text (chars "x")]] ∧
    pyEnds (chars "#.html") (chars ".html") = true ∧
    hasSubstr (chars "#.html") (chars ".html") = true :=
  ⟨by decide, by decide, by decide, by rfl, by decide, by decide⟩

/-- C2 (amended): every internal anchor whose `href` ends in `.html` is
rewritten to the in-page form `'#' + href` with all left-to-right occurrences
of `.html` removed — the result always begins with `#`; and whenever `.html`
occurs in the href only as the trailing extension, the rewritten href is
`#stem` and retains no `.html` (retention is possible only when removal
juxtaposes a new `.html`, as in the counterexample). -/
theorem C2_amended_anchor_rewrite (attrs : List (List Char × List Char))
    (children : List Node) (href : List Char)
    (hhref : getAttr attrs (chars "href") = some href)
    (h1 : pyStarts href (chars "http://") = false)
    (h2 : pyStarts href (chars "https://") = false)
    (h3 : pyEnds href (chars ".html") = true) :
    (∃ a2, clean_attributes_node (Node.elem (chars "a") attrs children)
        = [Node.elem (chars "a") a2 (clean_attributes_list children)] ∧
      getAttr a2 (chars "href") = some ((chars "#") ++ removeHtmlExt href) ∧
      ((chars "#") ++ removeHtmlExt href).head? = some '#') ∧
    (∀ stem, href = stem ++ chars ".html" → hasSubstr stem (chars ".html") = false →
      removeHtmlExt href = stem ∧
      hasSubstr ((chars "#") ++ stem) (chars ".html") = false) := by
  constructor
  · refine ⟨setHref (dropObsoleteAttrs attrs) ((chars "#") ++ removeHtmlExt href),
            ?_, getAttr_setHref_dropObsolete attrs href _ hhref, rfl⟩
    simp only [clean_attributes_node, hhref, h1, h2, h3]
    simp
  · rintro stem rfl hstem
    exact ⟨removeHtmlExt_single stem hstem, hasSubstr_hash_cons stem hstem⟩

/-- Witness for the amended C2 at the typical anchor
`<a href="chap01.html">x</a>`: the href becomes `#chap01`, with no `.html`
left. -/
theorem C2_amended_anchor_rewrite_witness :
    (∃ a2, clean_attributes_node
        (Node.elem (chars "a") [(chars "href", chars "chap01.html")] [Node.text (chars "x")])
        = [Node.elem (chars "a") a2 (clean_attributes_list [Node.text (chars "x")])] ∧
      getAttr a2 (chars "href") = some ((chars "#") ++ removeHtmlExt (chars "chap01.html")) ∧
      ((chars "#") ++ removeHtmlExt (chars "chap01.html")).head? = some '#') ∧
    (removeHtmlExt (chars "chap01.html") = chars "chap01" ∧
      hasSubstr ((chars "#") ++ chars "chap01") (chars ".html") = false) :=
  ⟨(C2_amended_anchor_rewrite [(chars "href", chars "chap01.html")] [Node.text (chars "x")]
      (chars "chap01.html") rfl rfl rfl rfl).1,
   (C2_amended_anchor_rewrite [(chars "href", chars "chap01.html")] [Node.text (chars "x")]
      (chars "chap01.html") rfl rfl rfl rfl).2 (chars "chap01") rfl (by decide)⟩

/-! ### Claim C3: keyword-bearing containers -/

/-- Counterexample to C3 as stated: a `div` whose flattened text contains the
branding keyword `mcgraw-hill` survives `remove_navigation_elements`
untouched — the removal passes only cover the container shapes `table`, `p`,
`center` and `font`, not "every container element shape". -/
theorem C3_counterexample :
    (chars "mcgraw-hill") ∈ nav_keywords ∧
    hasNavKeyword (pyLower (nodeText
      (Node.elem (chars "div") [] [Node.text (chars "mcgraw-hill")]))) = true ∧
    remove_navigation_elements
      [Node.elem (chars "div") [] [Node.text (chars "mcgraw-hill")]]
      = [Node.elem (chars "div") [] [Node.text (chars "mcgraw-hill")]] :=
  ⟨by decide, by decide, by rfl⟩

theorem decomposeAll_remove_elem (p : Node → Bool) (n : Node) (h : p n = true) :
    decomposeAllL p [n] = [] := by
  cases n <;> simp [decomposeAllL, decomposeAllN, h]

/-- C3 (amended): for every container of shape `table`, `p`, `center` or
`font` — the shapes the code checks — holding text whose lowercase form
contains a navigation/branding keyword, the cleaned output contains zero
occurrences of the container: the whole fragment is removed, for arbitrary
attributes, arbitrary keyword position and every keyword of the list.
Containers of other shapes (e.g. `div`) are not removed. -/
theorem C3_amended_keyword_containers (shape : List Char)
    (hshape : shape = chars "table" ∨ shape = chars "p" ∨
      shape = chars "center" ∨ shape = chars "font")
    (attrs : List (List Char × List Char)) (s : List Char)
    (hkw : hasNavKeyword (pyLower s) = true) :
    remove_navigation_elements [Node.elem shape attrs [Node.text s]] = [] := by
  rcases hshape with rfl | rfl | rfl | rfl
  · -- table: removed at the tables pass
    have h3 : keywordPass (chars "table") [Node.elem (chars "table") attrs [Node.text s]]
        = [] := by
      unfold keywordPass
      apply decomposeAll_remove_elem
      simp [isTagB, nodeText, nodesText, hkw]
    have e1 : summaryPass [Node.elem (chars "table") attrs [Node.text s]]
        = [Node.elem (chars "table") attrs [Node.text s]] := rfl
    have e2 : legacyPass [Node.elem (chars "table") attrs [Node.text s]]
        = [Node.elem (chars "table") attrs [Node.text s]] := rfl
    simp only [remove_navigation_elements, e1, e2, h3]
    rfl
  · -- p: removed at the summary pass or the paragraphs pass
    by_cases hcc : hasSubstr (pyLower (pyStrip (nodesText [Node.text s])))
        (chars "chapter by chapter") = true
    · have h1 : summaryPass [Node.elem (chars "p") attrs [Node.text s]] = [] := by
        simp [summaryPass, summaryL, summaryN, summaryStep, hcc,
          (show summaryScanned (chars "p") = true from rfl)]
      simp only [remove_navigation_elements, h1]
      rfl
    · have h1 : summaryPass [Node.elem (chars "p") attrs [Node.text s]]
          = [Node.elem (chars "p") attrs [Node.text s]] := by
        simp [summaryPass, summaryL, summaryN, summaryStep, hcc,
          (show summaryScanned (chars "p") = true from rfl)]
      have e2 : legacyPass [Node.elem (chars "p") attrs [Node.text s]]
          = [Node.elem (chars "p") attrs [Node.text s]] := rfl
      have e3 : keywordPass (chars "table") [Node.elem (chars "p") attrs [Node.text s]]
          = [Node.elem (chars "p") attrs [Node.text s]] := rfl
      have h4 : keywordPass (chars "p") [Node.elem (chars "p") attrs [Node.text s]]
          = [] := by
        unfold keywordPass
        apply decomposeAll_remove_elem
        simp [isTagB, nodeText, nodesText, hkw]
      simp only [remove_navigation_elements, h1, e2, e3, h4]
      rfl
  · -- center: removed at the centers pass
    have e1 : summaryPass [Node.elem (chars "center") attrs [Node.text s]]
        = [Node.elem (chars "center") attrs [Node.text s]] := rfl
    have e2 : legacyPass [Node.elem (chars "center") attrs [Node.text s]]
        = [Node.elem (chars "center") attrs [Node.text s]] := rfl
    have e3 : keywordPass (chars "table") [Node.elem (chars "center") attrs [Node.text s]]
        = [Node.elem (chars "center") attrs [Node.text s]] := rfl
    have e4 : keywordPass (chars "p") [Node.elem (chars "center") attrs [Node.text s]]
        = [Node.elem (chars "center") attrs [Node.text s]] := rfl
    have h5 : keywordPass (chars "center") [Node.elem (chars "center") attrs [Node.text s]]
        = [] := by
      unfold keywordPass
      apply decomposeAll_remove_elem
      simp [isTagB, nodeText, nodesText, hkw]
    simp only [remove_navigation_elements, e1, e2, e3, e4, h5]
    rfl
  · -- font: survives to the fonts pass, then is removed
    have e1 : summaryPass [Node.elem (chars "font") attrs [Node.text s]]
        = [Node.elem (chars "font") attrs [Node.text s]] := rfl
    have e2 : legacyPass [Node.elem (chars "font") attrs [Node.text s]]
        = [Node.elem (chars "font") attrs [Node.text s]] := rfl
    have e3 : keywordPass (chars "table") [Node.elem (chars "font") attrs [Node.text s]]
        = [Node.elem (chars "font") attrs [Node.text s]] := rfl
    have e4 : keywordPass (chars "p") [Node.elem (chars "font") attrs [Node.text s]]
        = [Node.elem (chars "font") attrs [Node.text s]] := rfl
    have e5 : keywordPass (chars "center") [Node.elem (chars "font") attrs [Node.text s]]
        = [Node.elem (chars "font") attrs [Node.text s]] := rfl
    have e6 : tocPass [Node.elem (chars "font") attrs [Node.text s]]
        = [Node.elem (chars "font") attrs [Node.text s]] := rfl
    have e7 : externalAnchorPass [Node.elem (chars "font") attrs [Node.text s]]
        = [Node.elem (chars "font") attrs [Node.text s]] := rfl
    have e8 : imgPassL [Node.elem (chars "font") attrs [Node.text s]]
        = [Node.elem (chars "font") attrs [Node.text s]] := rfl
    have e9 : decomposeAllL (isTagB (chars "hr"))
        [Node.elem (chars "font") attrs [Node.text s]]
        = [Node.elem (chars "font") attrs [Node.text s]] := rfl
    have e10 : decomposeAllL (isTagB (chars "script"))
        [Node.elem (chars "font") attrs [Node.text s]]
        = [Node.elem (chars "font") attrs [Node.text s]] := rfl
    have e11 : decomposeAllL (fun n => match n with | .comment _ => true | _ => false)
        [Node.elem (chars "font") attrs [Node.text s]]
        = [Node.elem (chars "font") attrs [Node.text s]] := rfl
    have h12 : keywordPass (chars "font") [Node.elem (chars "font") attrs [Node.text s]]
        = [] := by
      unfold keywordPass
      apply decomposeAll_remove_elem
      simp [isTagB, nodeText, nodesText, hkw]
    simp only [remove_navigation_elements, e1, e2, e3, e4, e5, e6, e7, e8, e9, e10, e11, h12]
    rfl

/-- Witness for the amended C3: a paragraph with branding text is removed. -/
theorem C3_amended_keyword_containers_witness :
    ((chars "p") = chars "table" ∨ (chars "p") = chars "p" ∨
      (chars "p") = chars "center" ∨ (chars "p") = chars "font") ∧
    hasNavKeyword (pyLower (chars "Copyright 1997 by McGraw-Hill")) = true ∧
    remove_navigation_elements
      [Node.elem (chars "p") [] [Node.text (chars "Copyright 1997 by McGraw-Hill")]] = [] :=
  ⟨Or.inr (Or.inl rfl), by decide,
   C3_amended_keyword_containers (chars "p") (Or.inr (Or.inl rfl)) []
     (chars "Copyright 1997 by McGraw-Hill") (by decide)⟩

/-! ### Claim C4: the fixed file enumeration of the assembler -/

/-- A directory with one file added/overwritten. -/
def updateDir (dir : Dir) (name : List Char) (doc : List Node) : Dir :=
  fun fn => if fn = name then some doc else dir fn

/-- A directory with one file removed. -/
def removeDir (dir : Dir) (name : List Char) : Dir :=
  fun fn => if fn = name then none else dir fn

theorem process_fragId (stem : List Char) (doc : List Node) (ty : List Char)
    (num : Option (List Char)) (frag : List Node)
    (h : process_html_file stem doc ty num = some frag) :
    fragId frag = some stem := by
  rw [process_html_file.eq_def] at h
  split at h
  · cases h
  · split at h
    · cases h
    · have h2 := Option.some.inj h
      subst h2
      rfl

theorem filterMap_congr_mem {α β : Type} (l : List α) (f g : α → Option β)
    (h : ∀ a ∈ l, f a = g a) : l.filterMap f = l.filterMap g := by
  induction l with
  | nil => rfl
  | cons a rest ih =>
    simp only [List.filterMap_cons, h a (List.mem_cons_self a rest)]
    rw [ih (fun x hx => h x (List.mem_cons_of_mem _ hx))]

theorem filterMap_map_sublist {α β γ : Type} (l : List α) (f : α → Option β)
    (g : β → γ) (k : α → γ) (hc : ∀ a b, f a = some b → g b = k a) :
    List.Sublist ((l.filterMap f).map g) (l.map k) := by
  induction l with
  | nil => simp
  | cons a rest ih =>
    cases hfa : f a with
    | none =>
      simp only [List.filterMap_cons, hfa, List.map_cons]
      exact ih.cons _
    | some b =>
      simp only [List.filterMap_cons, hfa, List.map_cons]
      rw [hc a b hfa]
      exact ih.cons₂ _

theorem combine_removeDir_aux (dir : Dir) (name : List Char)
    (l : List (List Char × List Char × Option (List Char)))
    (hstem : ∀ e ∈ l, stemOf e.fst = stemOf name → e.fst = name) :
    l.filterMap (fun e => match removeDir dir name e.fst with
      | some doc => process_html_file (stemOf e.fst) doc e.snd.fst e.snd.snd
      | none => none)
    = (l.filterMap (fun e => match dir e.fst with
      | some doc => process_html_file (stemOf e.fst) doc e.snd.fst e.snd.snd
      | none => none)).filter (fun frag => !(fragId frag == some (stemOf name))) := by
  induction l with
  | nil => rfl
  | cons e rest ih =>
    have hrest := fun x hx => hstem x (List.mem_cons_of_mem _ hx)
    by_cases he : e.fst = name
    · have hrd : removeDir dir name e.fst = none := by
        simp [removeDir, he]
      rw [List.filterMap_cons, List.filterMap_cons, hrd]
      cases hdd : dir e.fst with
      | none => exact ih hrest
      | some doc =>
        dsimp only []
        cases hp : process_html_file (stemOf e.fst) doc e.snd.fst e.snd.snd with
        | none => exact ih hrest
        | some frag =>
          have hid : fragId frag = some (stemOf name) := by
            rw [← he]; exact process_fragId _ _ _ _ _ hp
          dsimp only []
          rw [List.filter_cons]
          rw [if_neg (by simp [hid])]
          exact ih hrest
    · have hrd : removeDir dir name e.fst = dir e.fst := by
        simp [removeDir, he]
      rw [List.filterMap_cons, List.filterMap_cons, hrd]
      cases hdd : dir e.fst with
      | none => exact ih hrest
      | some doc =>
        dsimp only []
        cases hp : process_html_file (stemOf e.fst) doc e.snd.fst e.snd.snd with
        | none => exact ih hrest
        | some frag =>
          have hid : fragId frag = some (stemOf e.fst) := process_fragId _ _ _ _ _ hp
          have hne : ¬ stemOf e.fst = stemOf name :=
            fun hx => he (hstem e (List.mem_cons_self _ _) hx)
          dsimp only []
          rw [List.filter_cons]
          rw [if_pos (by simp [hid, hne])]
          rw [ih hrest]

set_option maxHeartbeats 2000000 in
theorem expected_stems_identify :
    ∀ name ∈ expectedNames, ∀ e ∈ file_order, stemOf e.fst = stemOf name → e.fst = name := by
  decide

/-- C4: the assembler's enumeration is the fixed list `intro.html`,
`preface.html`, `chap01.html`..`chap20.html`, `appa.html`..`appc.html`:
(1) adding a file with any non-expected name to the directory leaves the
output unchanged (non-matching files are ignored); (2) the anchor ids of the
produced fragments are a subsequence of the fixed enumeration's stems, so
fragments appear in exactly the enumeration order; (3) removing an expected
file from the directory only deletes that file's fragment — the run is not
aborted and all other fragments are unchanged (the absent file is skipped). -/
theorem C4_fixed_enumeration (dir : Dir) (name : List Char) (d : List Node)
    (hname : name ∉ expectedNames) (mname : List Char) (hm : mname ∈ expectedNames) :
    combine_html_files (updateDir dir name d) = combine_html_files dir ∧
    List.Sublist ((combine_html_files dir).map fragId) (expectedStems.map some) ∧
    combine_html_files (removeDir dir mname)
      = (combine_html_files dir).filter
          (fun frag => !(fragId frag == some (stemOf mname))) := by
  refine ⟨?_, ?_, ?_⟩
  · unfold combine_html_files
    apply filterMap_congr_mem
    intro e he
    have hfn : e.fst ∈ expectedNames := List.mem_map_of_mem _ he
    have : ¬ e.fst = name := fun hx => hname (hx ▸ hfn)
    simp [updateDir, this]
  · unfold combine_html_files expectedStems
    rw [List.map_map]
    apply filterMap_map_sublist
    intro e frag hf
    simp only [Function.comp]
    cases hdd : dir e.fst with
    | none => rw [hdd] at hf; cases hf
    | some doc =>
      rw [hdd] at hf
      rw [process_fragId _ _ _ _ _ hf]
  · exact combine_removeDir_aux dir mname file_order
      (fun e he => expected_stems_identify mname hm e he)

/-- Witness for C4: a directory holding only `intro.html`; adding
`cover.html` (not in the convention) changes nothing, the ids are a
subsequence of the fixed stems, and removing `intro.html` deletes exactly
its fragment. -/
theorem C4_fixed_enumeration_witness :
    combine_html_files (updateDir (fun fn =>
        if fn = chars "intro.html"
        then some [Node.elem (chars "body") [] [Node.elem (chars "h2") [] [Node.text (chars "Hello")]]]
        else none) (chars "cover.html") [])
      = combine_html_files (fun fn =>
        if fn = chars "intro.html"
        then some [Node.elem (chars "body") [] [Node.elem (chars "h2") [] [Node.text (chars "Hello")]]]
        else none) ∧
    List.Sublist ((combine_html_files (fun fn =>
        if fn = chars "intro.html"
        then some [Node.elem (chars "body") [] [Node.elem (chars "h2") [] [Node.text (chars "Hello")]]]
        else none)).map fragId) (expectedStems.map some) ∧
    combine_html_files (removeDir (fun fn =>
        if fn = chars "intro.html"
        then some [Node.elem (chars "body") [] [Node.elem (chars "h2") [] [Node.text (chars "Hello")]]]
        else none) (chars "intro.html"))
      = (combine_html_files (fun fn =>
        if fn = chars "intro.html"
        then some [Node.elem (chars "body") [] [Node.elem (chars "h2") [] [Node.text (chars "Hello")]]]
        else none)).filter
          (fun frag => !(fragId frag == some (stemOf (chars "intro.html")))) :=
  C4_fixed_enumeration _ (chars "cover.html") [] (by decide) (chars "intro.html") (by decide)

/-! ### Path lemmas for the heading theorems -/

/-- Node of a subtree at a relative path (`[]` is the subtree root). -/
def getInNode : Node → List Nat → Option Node
  | n, [] => some n
  | n, q => childAt n q

theorem getAt?_nil_path (ns : List Node) : getAt? ns [] = none := by
  cases ns <;> rfl

mutual
theorem findNode_sound (p : Node → Bool) :
    (n : Node) → (q : List Nat) → q ∈ findNode p n →
      ∃ m, getInNode n q = some m ∧ p m = true
  | .text s, q, hq => by
    simp only [findNode] at hq
    split at hq
    · rename_i hp
      simp only [List.mem_singleton] at hq
      subst hq
      exact ⟨.text s, rfl, hp⟩
    · cases hq
  | .comment s, q, hq => by
    simp only [findNode] at hq
    split at hq
    · rename_i hp
      simp only [List.mem_singleton] at hq
      subst hq
      exact ⟨.comment s, rfl, hp⟩
    · cases hq
  | .elem t a cs, q, hq => by
    simp only [findNode, List.mem_append] at hq
    rcases hq with hq | hq
    · split at hq
      · rename_i hp
        simp only [List.mem_singleton] at hq
        subst hq
        exact ⟨.elem t a cs, rfl, hp⟩
      · cases hq
    · obtain ⟨m, hg, hp⟩ := findList_sound p cs q hq
      refine ⟨m, ?_, hp⟩
      cases q with
      | nil => rw [getAt?_nil_path] at hg; exact Option.noConfusion hg
      | cons j qs => exact hg
theorem findList_sound (p : Node → Bool) :
    (ns : List Node) → (q : List Nat) → q ∈ findList p ns →
      ∃ m, getAt? ns q = some m ∧ p m = true
  | [], q, hq => by cases hq
  | n :: ns, q, hq => by
    simp only [findList, List.mem_append, List.mem_map] at hq
    rcases hq with ⟨q2, hq2, rfl⟩ | ⟨q2, hq2, rfl⟩
    · obtain ⟨m, hg, hp⟩ := findNode_sound p n q2 hq2
      refine ⟨m, ?_, hp⟩
      cases q2 with
      | nil =>
        simp only [getInNode] at hg
        injection hg with hg2
        subst hg2
        rfl
      | cons j qs =>
        cases n with
        | text s => exact Option.noConfusion hg
        | comment s => exact Option.noConfusion hg
        | elem t a cs => exact hg
    · obtain ⟨m, hg, hp⟩ := findList_sound p ns q2 hq2
      refine ⟨m, ?_, hp⟩
      cases q2 with
      | nil => rw [getAt?_nil_path] at hg; exact Option.noConfusion hg
      | cons j qs => exact hg
end

theorem getElem?_modifyIdx (ns : List Node) (i j : Nat) (f : Node → Node) :
    (modifyIdx ns i f)[j]? = if i = j then (ns[j]?).map f else ns[j]? := by
  induction ns generalizing i j with
  | nil => simp [modifyIdx]
  | cons n rest ih =>
    cases i with
    | zero =>
      cases j with
      | zero => simp [modifyIdx]
      | succ j2 => simp [modifyIdx]
    | succ i2 =>
      cases j with
      | zero => simp [modifyIdx]
      | succ j2 =>
        simp only [modifyIdx, List.getElem?_cons_succ, ih i2 j2]
        by_cases hij : i2 = j2 <;> simp [hij]

theorem getAt?_modifyAt_self (ns : List Node) (P : List Nat) (f : Node → Node) :
    getAt? (modifyAt ns P f) P = (getAt? ns P).map f := by
  induction P generalizing ns with
  | nil => rw [modifyAt, getAt?_nil_path]; rfl
  | cons i P2 ihP =>
    induction ns generalizing i with
    | nil => cases P2 <;> rfl
    | cons n rest ihNs =>
      cases i with
      | zero =>
        cases P2 with
        | nil => rfl
        | cons j qs =>
          cases n with
          | text s => rfl
          | comment s => rfl
          | elem t a cs =>
            show getAt? (modifyAt cs (j :: qs) f) (j :: qs) = (getAt? cs (j :: qs)).map f
            exact ihP cs
      | succ i2 =>
        cases P2 with
        | nil => exact ihNs i2
        | cons j qs => exact ihNs i2

/-! ### Claim C8: front-matter heading promotion and anchor wrapper -/

/-- C8: for a front-matter document, the first heading found (`h1`, `h2` or
`h3`, in document order) is renamed to `h1` in place by
`fix_heading_hierarchy`; every fragment `process_html_file` produces is a
single container whose id is the source file stem; and a directory holding
only `intro.html` with `<h2>Hello</h2>` in its body combines to exactly one
fragment `<div id="intro"><h1>Hello</h1></div>`. -/
theorem C8_front_matter (doc : List Node) (p : List Nat) (ps : List (List Nat))
    (hfind : findList isHeading123 doc = p :: ps) :
    (∃ t a cs0, getAt? doc p = some (Node.elem t a cs0) ∧
      (t = chars "h1" ∨ t = chars "h2" ∨ t = chars "h3") ∧
      getAt? (fix_heading_hierarchy doc (chars "intro") none) p
        = some (Node.elem (chars "h1") a cs0)) ∧
    (∀ stem d ty num frag, process_html_file stem d ty num = some frag →
      fragId frag = some stem) ∧
    combine_html_files (fun fn =>
      if fn = chars "intro.html"
      then some [Node.elem (chars "body") []
        [Node.elem (chars "h2") [] [Node.text (chars "Hello")]]]
      else none)
    = [[Node.elem (chars "div") [(chars "id", chars "intro")]
        [Node.elem (chars "h1") [] [Node.text (chars "Hello")]]]] := by
  refine ⟨?_, fun stem d ty num frag h => process_fragId stem d ty num frag h, by rfl⟩
  have hmem : p ∈ findList isHeading123 doc := by
    rw [hfind]; exact List.mem_cons_self _ _
  obtain ⟨m, hget, hpred⟩ := findList_sound isHeading123 doc p hmem
  have hfix : fix_heading_hierarchy doc (chars "intro") none = modifyAt doc p renameToH1 := by
    rw [fix_heading_hierarchy.eq_def]
    rw [if_pos (Or.inl rfl), hfind]
  cases m with
  | text s => simp [isHeading123, isTagB] at hpred
  | comment s => simp [isHeading123, isTagB] at hpred
  | elem t a cs =>
    have htag : t = chars "h1" ∨ t = chars "h2" ∨ t = chars "h3" := by
      simpa [isHeading123, isTagB] using hpred
    refine ⟨t, a, cs, hget, htag, ?_⟩
    rw [hfix, getAt?_modifyAt_self, hget]
    rfl

/-- Witness for C8 at the concrete front-matter fragment `<h2>Hello</h2>`:
the heading at path `[0]` is promoted to `h1`. -/
theorem C8_front_matter_witness :
    (∃ t a cs0,
      getAt? [Node.elem (chars "h2") [] [Node.text (chars "Hello")]] [0]
        = some (Node.elem t a cs0) ∧
      (t = chars "h1" ∨ t = chars "h2" ∨ t = chars "h3") ∧
      getAt? (fix_heading_hierarchy [Node.elem (chars "h2") [] [Node.text (chars "Hello")]]
          (chars "intro") none) [0]
        = some (Node.elem (chars "h1") a cs0)) ∧
    (∀ stem d ty num frag, process_html_file stem d ty num = some frag →
      fragId frag = some stem) ∧
    combine_html_files (fun fn =>
      if fn = chars "intro.html"
      then some [Node.elem (chars "body") []
        [Node.elem (chars "h2") [] [Node.text (chars "Hello")]]]
      else none)
    = [[Node.elem (chars "div") [(chars "id", chars "intro")]
        [Node.elem (chars "h1") [] [Node.text (chars "Hello")]]]] :=
  C8_front_matter [Node.elem (chars "h2") [] [Node.text (chars "Hello")]] [0] [] rfl

/-! ### Removal shift lemmas for the chapter/appendix theorems -/

/-- Path of a surviving node after the subtree at `L` is removed (`decompose`
shifts later siblings of the removed node one position left). -/
def shiftAfterRemove : List Nat → List Nat → List Nat
  | [l], t :: ts => if l < t then (t - 1) :: ts else t :: ts
  | l :: ls, t :: ts => if l = t then t :: shiftAfterRemove ls ts else t :: ts
  | _, T => T

theorem shiftAfterRemove_cons (L : List Nat) (t : Nat) (ts : List Nat) :
    ∃ h tl, shiftAfterRemove L (t :: ts) = h :: tl := by
  cases L with
  | nil => exact ⟨t, ts, rfl⟩
  | cons l ls =>
    cases ls with
    | nil =>
      by_cases hc : l < t
      · exact ⟨t - 1, ts, by simp [shiftAfterRemove, hc]⟩
      · exact ⟨t, ts, by simp [shiftAfterRemove, hc]⟩
    | cons l2 ls2 =>
      by_cases hc : l = t
      · exact ⟨t, shiftAfterRemove (l2 :: ls2) ts, by simp [shiftAfterRemove, hc]⟩
      · exact ⟨t, ts, by simp [shiftAfterRemove, hc]⟩

theorem getAt?_eraseIdx_lt (ns : List Node) (l k : Nat) (ts : List Nat) :
    getAt? (ns.eraseIdx l) ((l + k) :: ts) = getAt? ns ((l + k + 1) :: ts) := by
  induction ns generalizing l with
  | nil => cases l <;> rfl
  | cons n rest ih =>
    cases l with
    | zero =>
      show getAt? rest ((0 + k) :: ts) = getAt? (n :: rest) ((0 + k + 1) :: ts)
      rw [Nat.zero_add]
      rfl
    | succ l2 =>
      show getAt? (n :: rest.eraseIdx l2) ((l2 + 1 + k) :: ts)
        = getAt? (n :: rest) ((l2 + 1 + k + 1) :: ts)
      have e1 : l2 + 1 + k = (l2 + k) + 1 := by omega
      rw [e1]
      show getAt? (rest.eraseIdx l2) ((l2 + k) :: ts) = getAt? rest ((l2 + k + 1) :: ts)
      exact ih l2

theorem getAt?_eraseIdx_gt (ns : List Node) (l t : Nat) (ts : List Nat) (h : t < l) :
    getAt? (ns.eraseIdx l) (t :: ts) = getAt? ns (t :: ts) := by
  induction ns generalizing l t with
  | nil => cases l <;> rfl
  | cons n rest ih =>
    cases l with
    | zero => omega
    | succ l2 =>
      cases t with
      | zero =>
        show getAt? (n :: rest.eraseIdx l2) (0 :: ts) = getAt? (n :: rest) (0 :: ts)
        cases ts <;> rfl
      | succ t2 =>
        show getAt? (rest.eraseIdx l2) (t2 :: ts) = getAt? rest (t2 :: ts)
        exact ih l2 t2 (by omega)

theorem getAt?_modifyIdx_ne (ns : List Node) (f : Node → Node) (l t : Nat)
    (ts : List Nat) (h : ¬ l = t) :
    getAt? (modifyIdx ns l f) (t :: ts) = getAt? ns (t :: ts) := by
  induction ns generalizing l t with
  | nil => cases l <;> rfl
  | cons n rest ih =>
    cases l with
    | zero =>
      cases t with
      | zero => omega
      | succ t2 =>
        show getAt? rest (t2 :: ts) = getAt? (n :: rest) ((t2 + 1) :: ts)
        rfl
    | succ l2 =>
      cases t with
      | zero =>
        show getAt? (n :: modifyIdx rest l2 f) (0 :: ts) = getAt? (n :: rest) (0 :: ts)
        cases ts <;> rfl
      | succ t2 =>
        show getAt? (modifyIdx rest l2 f) (t2 :: ts) = getAt? rest (t2 :: ts)
        exact ih l2 t2 (by omega)

theorem getAt?_modifyIdx_childMod (ns : List Node) (g : List Node → List Node)
    (l : Nat) (Q Q2 : List Nat)
    (hg : ∀ cs, getAt? (g cs) Q2 = getAt? cs Q)
    (hQ : Q ≠ []) (hQ2 : Q2 ≠ []) :
    getAt? (modifyIdx ns l (childMod g)) (l :: Q2) = getAt? ns (l :: Q) := by
  induction ns generalizing l with
  | nil => cases l <;> rfl
  | cons n rest ih =>
    cases l with
    | zero =>
      obtain ⟨q, qs, rfl⟩ : ∃ q qs, Q2 = q :: qs := by
        cases Q2 with
        | nil => exact absurd rfl hQ2
        | cons q qs => exact ⟨q, qs, rfl⟩
      obtain ⟨p, pss, rfl⟩ : ∃ p pss, Q = p :: pss := by
        cases Q with
        | nil => exact absurd rfl hQ
        | cons p pss => exact ⟨p, pss, rfl⟩
      show childAt (childMod g n) (q :: qs) = childAt n (p :: pss)
      cases n with
      | text s => rfl
      | comment s => rfl
      | elem t a cs =>
        show getAt? (g cs) (q :: qs) = getAt? cs (p :: pss)
        exact hg cs
    | succ l2 =>
      show getAt? (modifyIdx rest l2 (childMod g)) (l2 :: Q2) = getAt? rest (l2 :: Q)
      exact ih l2

theorem getAt?_removeAt_shift : ∀ (L : List Nat) (ns : List Node) (T : List Nat),
    L.isPrefixOf T = false → T.isPrefixOf L = false →
    getAt? (removeAt ns L) (shiftAfterRemove L T) = getAt? ns T := by
  intro L
  induction L with
  | nil => intro ns T h1 h2; simp [List.isPrefixOf] at h1
  | cons l ls ihL =>
    intro ns T h1 h2
    cases T with
    | nil => simp [List.isPrefixOf] at h2
    | cons t ts =>
      cases ls with
      | nil =>
        have hlt : ¬ l = t := by
          simpa [List.isPrefixOf] using h1
        show getAt? (ns.eraseIdx l) (shiftAfterRemove [l] (t :: ts)) = getAt? ns (t :: ts)
        by_cases hc : l < t
        · rw [show shiftAfterRemove [l] (t :: ts) = (t - 1) :: ts by
            simp [shiftAfterRemove, hc]]
          obtain ⟨k, rfl⟩ : ∃ k, t = l + k + 1 := ⟨t - l - 1, by omega⟩
          have : l + k + 1 - 1 = l + k := by omega
          rw [this]
          exact getAt?_eraseIdx_lt ns l k ts
        · rw [show shiftAfterRemove [l] (t :: ts) = t :: ts by
            simp [shiftAfterRemove, hc]]
          exact getAt?_eraseIdx_gt ns l t ts (by omega)
      | cons l2 ls2 =>
        by_cases hc : l = t
        · subst hc
          have h1a : (l2 :: ls2).isPrefixOf ts = false := by
            simpa [List.isPrefixOf] using h1
          have h2a : ts.isPrefixOf (l2 :: ls2) = false := by
            cases ts with
            | nil => simp [List.isPrefixOf] at h2
            | cons t2 ts2 => simpa [List.isPrefixOf] using h2
          have hQ : ts ≠ [] := by
            intro he
            subst he
            simp [List.isPrefixOf] at h2a
          obtain ⟨q, qs, hts⟩ : ∃ q qs, ts = q :: qs := by
            cases ts with
            | nil => exact absurd rfl hQ
            | cons q qs => exact ⟨q, qs, rfl⟩
          rw [show shiftAfterRemove (l :: l2 :: ls2) (l :: ts)
              = l :: shiftAfterRemove (l2 :: ls2) ts by simp [shiftAfterRemove]]
          show getAt? (modifyIdx ns l (childMod (fun cs => removeAt cs (l2 :: ls2))))
              (l :: shiftAfterRemove (l2 :: ls2) ts) = getAt? ns (l :: ts)
          apply getAt?_modifyIdx_childMod
          · intro cs
            exact ihL cs ts h1a h2a
          · exact hQ
          · subst hts
            obtain ⟨h0, tl, he⟩ := shiftAfterRemove_cons (l2 :: ls2) q qs
            rw [he]
            exact List.cons_ne_nil _ _
        · rw [show shiftAfterRemove (l :: l2 :: ls2) (t :: ts) = t :: ts by
            simp [shiftAfterRemove, hc]]
          show getAt? (modifyIdx ns l (childMod (fun cs => removeAt cs (l2 :: ls2))))
              (t :: ts) = getAt? ns (t :: ts)
          exact getAt?_modifyIdx_ne ns _ l t ts hc

theorem posLt_not_pre : ∀ (L T : List Nat), posLt L T = true → T.isPrefixOf L = false := by
  intro L
  induction L with
  | nil =>
    intro T h
    cases T with
    | nil => cases h
    | cons b bs => rfl
  | cons a as ih =>
    intro T h
    cases T with
    | nil => cases h
    | cons b bs =>
      rw [posLt] at h
      by_cases hab : a < b
      · have hba : ¬ b = a := by omega
        simp [List.isPrefixOf, hba]
      · rw [if_neg hab] at h
        by_cases hba : b < a
        · rw [if_pos hba] at h; cases h
        · rw [if_neg hba] at h
          have heq : b = a := by omega
          subst heq
          simp [List.isPrefixOf, ih bs h]

theorem isPrefixOf_exists_append : ∀ (P T : List Nat), P.isPrefixOf T = true →
    ∃ Q, T = P ++ Q := by
  intro P
  induction P with
  | nil => intro T _; exact ⟨T, rfl⟩
  | cons p ps ih =>
    intro T h
    cases T with
    | nil => simp [List.isPrefixOf] at h
    | cons t ts =>
      simp only [List.isPrefixOf, Bool.and_eq_true, beq_iff_eq] at h
      obtain ⟨rfl, h2⟩ := h
      obtain ⟨Q, rfl⟩ := ih ts h2
      exact ⟨Q, rfl⟩

theorem getAt?_append_childAt : ∀ (P : List Nat) (ns : List Node) (Q : List Nat) (a : Node),
    Q ≠ [] → getAt? ns P = some a → getAt? ns (P ++ Q) = childAt a Q := by
  intro P
  induction P with
  | nil => intro ns Q a _ hga; rw [getAt?_nil_path] at hga; cases hga
  | cons i P2 ihP =>
    intro ns Q a hQ hga
    induction ns generalizing i with
    | nil => cases i <;> cases hga
    | cons n rest ihNs =>
      cases i with
      | zero =>
        cases P2 with
        | nil =>
          injection hga with hga2
          subst hga2
          obtain ⟨q, qs, rfl⟩ : ∃ q qs, Q = q :: qs := by
            cases Q with
            | nil => exact absurd rfl hQ
            | cons q qs => exact ⟨q, qs, rfl⟩
          rfl
        | cons j qs2 =>
          cases n with
          | text s => exact Option.noConfusion hga
          | comment s => exact Option.noConfusion hga
          | elem t at2 cs =>
            show getAt? cs ((j :: qs2) ++ Q) = childAt a Q
            exact ihP cs Q a hQ hga
      | succ i2 =>
        show getAt? rest ((i2 :: P2) ++ Q) = childAt a Q
        exact ihNs i2 hga

mutual
theorem getAt?_mem_allNodes : (ns : List Node) → (q : List Nat) → (m : Node) →
    getAt? ns q = some m → m ∈ allNodesL ns
  | ns, [], m, h => by rw [getAt?_nil_path] at h; cases h
  | [], q :: qs, m, h => by cases q <;> cases h
  | n :: rest, [0], m, h => by
    have h2 : n = m := by injection h
    rw [← h2]
    show n ∈ allNodesN n ++ allNodesL rest
    apply List.mem_append_left
    cases n <;> simp [allNodesN]
  | n :: rest, 0 :: j :: qs, m, h => by
    obtain ⟨t, a, cs, rfl, hmem⟩ := childAt_mem_desc n (j :: qs) m h
    show m ∈ allNodesN (Node.elem t a cs) ++ allNodesL rest
    apply List.mem_append_left
    simp only [allNodesN]
    exact List.mem_cons_of_mem _ hmem
  | n :: rest, (i + 1) :: qs, m, h => by
    show m ∈ allNodesN n ++ allNodesL rest
    exact List.mem_append_right _ (getAt?_mem_allNodes rest (i :: qs) m h)
theorem childAt_mem_desc : (n : Node) → (q : List Nat) → (m : Node) →
    childAt n q = some m → ∃ t a cs, n = Node.elem t a cs ∧ m ∈ allNodesL cs
  | .text s, q, m, h => by cases h
  | .comment s, q, m, h => by cases h
  | .elem t a cs, q, m, h =>
    ⟨t, a, cs, rfl, getAt?_mem_allNodes cs q m h⟩
end

/-- Well-formed HTML heading structure: no `h1`/`h2`/`h3` element contains
another heading element among its descendants (the HTML content model for
headings; `BeautifulSoup` trees of real documents satisfy it). -/
def headingsFlat (ns : List Node) : Bool :=
  (allNodesL ns).all (fun n =>
    !(isHeading123 n) ||
    (match n with
     | .elem _ _ cs => (allNodesL cs).all (fun d => !(isHeading123 d))
     | _ => true))

theorem headingsFlat_no_desc (ns : List Node) (hflat : headingsFlat ns = true)
    (t : List Char) (a : List (List Char × List Char)) (cs : List Node)
    (hmem : Node.elem t a cs ∈ allNodesL ns)
    (hhead : isHeading123 (Node.elem t a cs) = true) :
    ∀ d ∈ allNodesL cs, isHeading123 d = false := by
  intro d hd
  have := (List.all_eq_true.mp hflat) _ hmem
  rw [hhead] at this
  simp only [Bool.not_true, Bool.false_or] at this
  have h2 := (List.all_eq_true.mp this) d hd
  simpa using h2

theorem cnt_cons (pred : Node → Bool) (n : Node) (rest : List Node) :
    cnt pred (n :: rest) = (allNodesN n).countP pred + cnt pred rest := by
  simp [cnt, allNodesL, List.countP_append]

theorem countP_allNodesN_elem (pred : Node → Bool) (t : List Char)
    (a : List (List Char × List Char)) (cs : List Node) :
    (allNodesN (Node.elem t a cs)).countP pred
      = cnt pred cs + (if pred (Node.elem t a cs) then 1 else 0) := by
  simp [allNodesN, cnt, List.countP_cons]

theorem cnt_modifyAt (pred : Node → Bool) (H : List Char)
    (hpred : ∀ t a cs1 cs2, ¬ t = H → pred (.elem t a cs1) = pred (.elem t a cs2)) :
    ∀ (P : List Nat) (ns : List Node) (f : Node → Node),
    (∀ n, getAt? ns P = some n →
      (allNodesN (f n)).countP pred = (allNodesN n).countP pred) →
    (∀ Pa t a cs1, Pa.isPrefixOf P = true → ¬ Pa = P →
        getAt? ns Pa = some (.elem t a cs1) → ¬ t = H) →
    cnt pred (modifyAt ns P f) = cnt pred ns := by
  intro P
  induction P with
  | nil => intro ns f _ _; rfl
  | cons i P2 ihP =>
    suffices haux : ∀ (ns : List Node) (i2 : Nat) (f : Node → Node),
        (∀ n, getAt? ns (i2 :: P2) = some n →
          (allNodesN (f n)).countP pred = (allNodesN n).countP pred) →
        (∀ Pa t a cs1, Pa.isPrefixOf (i2 :: P2) = true → ¬ Pa = i2 :: P2 →
            getAt? ns Pa = some (.elem t a cs1) → ¬ t = H) →
        cnt pred (modifyAt ns (i2 :: P2) f) = cnt pred ns by
      intro ns f h1 h2
      exact haux ns i f h1 h2
    intro ns
    induction ns with
    | nil => intro i2 f _ _; cases P2 <;> rfl
    | cons n rest ihNs =>
      intro i2 f h1 h2
      cases i2 with
      | zero =>
        cases P2 with
        | nil =>
          show cnt pred (f n :: rest) = cnt pred (n :: rest)
          rw [cnt_cons, cnt_cons, h1 n rfl]
        | cons j qs =>
          cases n with
          | text s => rfl
          | comment s => rfl
          | elem t a cs =>
            show cnt pred (Node.elem t a (modifyAt cs (j :: qs) f) :: rest)
              = cnt pred (Node.elem t a cs :: rest)
            have hpe : pred (Node.elem t a (modifyAt cs (j :: qs) f))
                = pred (Node.elem t a cs) := by
              apply hpred
              exact h2 [0] t a cs (by simp [List.isPrefixOf]) (by simp) rfl
            have hrec : cnt pred (modifyAt cs (j :: qs) f) = cnt pred cs := by
              apply ihP cs f
              · intro n2 hn2
                exact h1 n2 hn2
              · intro Pa t2 a2 cs1 hpre hne hget
                have hPa : Pa ≠ [] := by
                  intro he
                  subst he
                  rw [getAt?_nil_path] at hget
                  cases hget
                obtain ⟨p1, ps, rfl⟩ : ∃ p1 ps, Pa = p1 :: ps := by
                  cases Pa with
                  | nil => exact absurd rfl hPa
                  | cons p1 ps => exact ⟨p1, ps, rfl⟩
                apply h2 (0 :: p1 :: ps) t2 a2 cs1
                · simpa [List.isPrefixOf] using hpre
                · intro he
                  injection he with he1 he2
                  exact hne he2
                · exact hget
            rw [cnt_cons, cnt_cons, countP_allNodesN_elem, countP_allNodesN_elem, hpe, hrec]
      | succ i3 =>
        have hstep : cnt pred (modifyAt rest (i3 :: P2) f) = cnt pred rest := by
          apply ihNs i3 f
          · intro n2 hn2
            exact h1 n2 hn2
          · intro Pa t2 a2 cs1 hpre hne hget
            have hPa : Pa ≠ [] := by
              intro he
              subst he
              rw [getAt?_nil_path] at hget
              cases hget
            obtain ⟨p1, ps, rfl⟩ : ∃ p1 ps, Pa = p1 :: ps := by
              cases Pa with
              | nil => exact absurd rfl hPa
              | cons p1 ps => exact ⟨p1, ps, rfl⟩
            simp only [List.isPrefixOf, Bool.and_eq_true, beq_iff_eq] at hpre
            apply h2 ((p1 + 1) :: ps) t2 a2 cs1
            · simp [List.isPrefixOf, hpre.1, hpre.2]
            · intro he
              injection he with he1 he2
              exact hne (by rw [hpre.1, he2])
            · exact hget
        cases P2 with
        | nil =>
          show cnt pred (n :: modifyAt rest (i3 :: []) f) = cnt pred (n :: rest)
          rw [cnt_cons, cnt_cons, hstep]
        | cons j qs =>
          show cnt pred (n :: modifyAt rest (i3 :: j :: qs) f) = cnt pred (n :: rest)
          rw [cnt_cons, cnt_cons, hstep]

theorem cnt_removeAt (pred : Node → Bool) (H : List Char)
    (hpred : ∀ t a cs1 cs2, ¬ t = H → pred (.elem t a cs1) = pred (.elem t a cs2)) :
    ∀ (L : List Nat) (ns : List Node) (l0 : Node),
    getAt? ns L = some l0 →
    (∀ Pa t a cs1, Pa.isPrefixOf L = true → ¬ Pa = L →
        getAt? ns Pa = some (.elem t a cs1) → ¬ t = H) →
    cnt pred (removeAt ns L) + (allNodesN l0).countP pred = cnt pred ns := by
  intro L
  induction L with
  | nil => intro ns l0 hget _; rw [getAt?_nil_path] at hget; cases hget
  | cons i L2 ihL =>
    suffices haux : ∀ (ns : List Node) (i2 : Nat) (l0 : Node),
        getAt? ns (i2 :: L2) = some l0 →
        (∀ Pa t a cs1, Pa.isPrefixOf (i2 :: L2) = true → ¬ Pa = i2 :: L2 →
            getAt? ns Pa = some (.elem t a cs1) → ¬ t = H) →
        cnt pred (removeAt ns (i2 :: L2)) + (allNodesN l0).countP pred = cnt pred ns by
      intro ns l0 hget h2
      exact haux ns i l0 hget h2
    intro ns
    induction ns with
    | nil => intro i2 l0 hget _; cases i2 <;> cases hget
    | cons n rest ihNs =>
      intro i2 l0 hget h2
      cases i2 with
      | zero =>
        cases L2 with
        | nil =>
          have hn : n = l0 := by injection hget
          show cnt pred rest + (allNodesN l0).countP pred = cnt pred (n :: rest)
          rw [cnt_cons, ← hn]
          omega
        | cons j qs =>
          cases n with
          | text s => exact Option.noConfusion hget
          | comment s => exact Option.noConfusion hget
          | elem t a cs =>
            have hget2 : getAt? cs (j :: qs) = some l0 := hget
            show cnt pred (Node.elem t a (removeAt cs (j :: qs)) :: rest)
              + (allNodesN l0).countP pred = cnt pred (Node.elem t a cs :: rest)
            have hpe : pred (Node.elem t a (removeAt cs (j :: qs)))
                = pred (Node.elem t a cs) := by
              apply hpred
              exact h2 [0] t a cs (by simp [List.isPrefixOf]) (by simp) rfl
            have hrec : cnt pred (removeAt cs (j :: qs)) + (allNodesN l0).countP pred
                = cnt pred cs := by
              apply ihL cs l0 hget2
              intro Pa t2 a2 cs1 hpre hne hget3
              have hPa : Pa ≠ [] := by
                intro he
                subst he
                rw [getAt?_nil_path] at hget3
                cases hget3
              obtain ⟨p1, ps, rfl⟩ : ∃ p1 ps, Pa = p1 :: ps := by
                cases Pa with
                | nil => exact absurd rfl hPa
                | cons p1 ps => exact ⟨p1, ps, rfl⟩
              apply h2 (0 :: p1 :: ps) t2 a2 cs1
              · simpa [List.isPrefixOf] using hpre
              · intro he
                injection he with he1 he2
                exact hne he2
              · exact hget3
            rw [cnt_cons, cnt_cons, countP_allNodesN_elem, countP_allNodesN_elem, hpe]
            omega
      | succ i3 =>
        have hget2 : getAt? rest (i3 :: L2) = some l0 := hget
        have hstep : cnt pred (removeAt rest (i3 :: L2)) + (allNodesN l0).countP pred
            = cnt pred rest := by
          apply ihNs i3 l0 hget2
          intro Pa t2 a2 cs1 hpre hne hget3
          have hPa : Pa ≠ [] := by
            intro he
            subst he
            rw [getAt?_nil_path] at hget3
            cases hget3
          obtain ⟨p1, ps, rfl⟩ : ∃ p1 ps, Pa = p1 :: ps := by
            cases Pa with
            | nil => exact absurd rfl hPa
            | cons p1 ps => exact ⟨p1, ps, rfl⟩
          simp only [List.isPrefixOf, Bool.and_eq_true, beq_iff_eq] at hpre
          apply h2 ((p1 + 1) :: ps) t2 a2 cs1
          · simp [List.isPrefixOf, hpre.1, hpre.2]
          · intro he
            injection he with he1 he2
            exact hne (by rw [hpre.1, he2])
          · exact hget3
        cases L2 with
        | nil =>
          show cnt pred (n :: removeAt rest (i3 :: [])) + (allNodesN l0).countP pred
            = cnt pred (n :: rest)
          rw [cnt_cons, cnt_cons]
          omega
        | cons j qs =>
          show cnt pred (n :: removeAt rest (i3 :: j :: qs)) + (allNodesN l0).countP pred
            = cnt pred (n :: rest)
          rw [cnt_cons, cnt_cons]
          omega

theorem getAt?_modifyAt_other : ∀ (T : List Nat) (ns : List Node) (f : Node → Node)
    (P : List Nat), T.isPrefixOf P = false → P.isPrefixOf T = false →
    getAt? (modifyAt ns T f) P = getAt? ns P := by
  intro T
  induction T with
  | nil => intro ns f P h1 _; simp [List.isPrefixOf] at h1
  | cons t ts ihT =>
    intro ns f P h1 h2
    cases P with
    | nil => simp [List.isPrefixOf] at h2
    | cons p ps =>
      cases ts with
      | nil =>
        have hne : ¬ t = p := by simpa [List.isPrefixOf] using h1
        exact getAt?_modifyIdx_ne ns f t p ps hne
      | cons t2 ts2 =>
        by_cases hc : t = p
        · subst hc
          have h1a : (t2 :: ts2).isPrefixOf ps = false := by
            simpa [List.isPrefixOf] using h1
          have h2a : ps.isPrefixOf (t2 :: ts2) = false := by
            cases ps with
            | nil => simp [List.isPrefixOf] at h2
            | cons p2 ps2 => simpa [List.isPrefixOf] using h2
          have hps : ps ≠ [] := by
            intro he
            subst he
            simp [List.isPrefixOf] at h2a
          show getAt? (modifyIdx ns t (childMod (fun cs => modifyAt cs (t2 :: ts2) f)))
              (t :: ps) = getAt? ns (t :: ps)
          apply getAt?_modifyIdx_childMod
          · intro cs
            exact ihT cs f ps h1a h2a
          · exact hps
          · exact hps
        · show getAt? (modifyIdx ns t (childMod (fun cs => modifyAt cs (t2 :: ts2) f)))
              (p :: ps) = getAt? ns (p :: ps)
          exact getAt?_modifyIdx_ne ns _ t p ps hc

theorem getAt?_modifyAt_anc_shape : ∀ (Pa : List Nat) (ns : List Node) (T : List Nat)
    (f : Node → Node), Pa.isPrefixOf T = true → ¬ Pa = T →
    ∀ t a cs1, getAt? (modifyAt ns T f) Pa = some (Node.elem t a cs1) →
    ∃ cs0, getAt? ns Pa = some (Node.elem t a cs0) := by
  intro Pa
  induction Pa with
  | nil =>
    intro ns T f _ _ t a cs1 hget
    rw [getAt?_nil_path] at hget
    cases hget
  | cons p pas ihPa =>
    suffices haux : ∀ (ns : List Node) (p2 : Nat) (ts : List Nat) (f : Node → Node),
        pas.isPrefixOf ts = true → ¬ pas = ts →
        ∀ t a cs1, getAt? (modifyAt ns (p2 :: ts) f) (p2 :: pas) = some (Node.elem t a cs1) →
        ∃ cs0, getAt? ns (p2 :: pas) = some (Node.elem t a cs0) by
      intro ns T f hpre hne t a cs1 hget
      cases T with
      | nil => simp [List.isPrefixOf] at hpre
      | cons t0 ts =>
        simp only [List.isPrefixOf, Bool.and_eq_true, beq_iff_eq] at hpre
        obtain ⟨rfl, hpre2⟩ := hpre
        exact haux ns p ts f hpre2 (fun he => hne (by rw [he])) t a cs1 hget
    intro ns
    induction ns with
    | nil =>
      intro p2 ts f _ _ t a cs1 hget
      cases ts <;> cases hget
    | cons n rest ihNs =>
      intro p2 ts f hpre hne t a cs1 hget
      cases p2 with
      | zero =>
        cases ts with
        | nil =>
          have : pas = [] := by
            cases pas with
            | nil => rfl
            | cons x xs => simp [List.isPrefixOf] at hpre
          exact absurd this hne
        | cons j qs =>
          cases pas with
          | nil =>
            have hC : childMod (fun cs => modifyAt cs (j :: qs) f) n
                = Node.elem t a cs1 := by injection hget
            cases n with
            | text s => exact Node.noConfusion hC
            | comment s => exact Node.noConfusion hC
            | elem t3 a3 cs3 =>
              injection hC with e1 e2 e3
              refine ⟨cs3, ?_⟩
              rw [← e1, ← e2]
              rfl
          | cons p3 ps3 =>
            cases n with
            | text s => exact Option.noConfusion hget
            | comment s => exact Option.noConfusion hget
            | elem t3 a3 cs3 =>
              obtain ⟨cs0, hr⟩ := ihPa cs3 (j :: qs) f hpre hne t a cs1 hget
              exact ⟨cs0, hr⟩
      | succ p3 =>
        cases ts with
        | nil =>
          have : pas = [] := by
            cases pas with
            | nil => rfl
            | cons x xs => simp [List.isPrefixOf] at hpre
          exact absurd this hne
        | cons j qs =>
          exact ihNs p3 (j :: qs) f hpre hne t a cs1 hget

theorem isPrefixOf_self_nat : ∀ (a : List Nat), a.isPrefixOf a = true := by
  intro a
  induction a with
  | nil => rfl
  | cons x xs ih => simp [List.isPrefixOf, ih]

theorem isPrefixOf_append_self : ∀ (a q : List Nat), a.isPrefixOf (a ++ q) = true := by
  intro a q
  induction a with
  | nil => cases q <;> rfl
  | cons x xs ih => simp [List.isPrefixOf, ih]

theorem isPrefixOf_trans_nat : ∀ (a b c : List Nat), a.isPrefixOf b = true →
    b.isPrefixOf c = true → a.isPrefixOf c = true := by
  intro a b c hab hbc
  obtain ⟨q1, rfl⟩ := isPrefixOf_exists_append a b hab
  obtain ⟨q2, rfl⟩ := isPrefixOf_exists_append (a ++ q1) c hbc
  rw [List.append_assoc]
  exact isPrefixOf_append_self a (q1 ++ q2)

/-- A predicate that only holds on elements of one fixed tag is insensitive to
the children of elements of any other tag. -/
theorem labelPred_insensitive (pred : Node → Bool)
    (hg : ∀ t a cs, pred (Node.elem t a cs) = true → t = chars "h1") :
    ∀ t a cs1 cs2, ¬ t = chars "h1" →
      pred (Node.elem t a cs1) = pred (Node.elem t a cs2) := by
  intro t a cs1 cs2 hne
  cases h1 : pred (Node.elem t a cs1) with
  | true => exact absurd (hg t a cs1 h1) hne
  | false =>
    cases h2 : pred (Node.elem t a cs2) with
    | true => exact absurd (hg t a cs2 h2) hne
    | false => rfl

theorem chapterLabel_tag : ∀ t a cs, chapterLabel (Node.elem t a cs) = true →
    t = chars "h1" := by
  intro t a cs h
  simp only [chapterLabel, isTagB, Bool.and_eq_true, decide_eq_true_eq, beq_iff_eq] at h
  exact h.1

theorem appendixLabel_tag : ∀ t a cs, appendixLabel (Node.elem t a cs) = true →
    t = chars "h1" := by
  intro t a cs h
  simp only [appendixLabel, isTagB, Bool.and_eq_true, decide_eq_true_eq, beq_iff_eq] at h
  exact h.1

theorem chapterLabel_imp_heading : ∀ n, chapterLabel n = true → isHeading123 n = true := by
  intro n h
  cases n with
  | text s => simp [chapterLabel, isTagB] at h
  | comment s => simp [chapterLabel, isTagB] at h
  | elem t a cs =>
    rw [chapterLabel_tag t a cs h]
    rfl

theorem appendixLabel_imp_heading : ∀ n, appendixLabel n = true → isHeading123 n = true := by
  intro n h
  cases n with
  | text s => simp [appendixLabel, isTagB] at h
  | comment s => simp [appendixLabel, isTagB] at h
  | elem t a cs =>
    rw [appendixLabel_tag t a cs h]
    rfl

/-- In a heading-flat document no strict ancestor of a heading is an `h1`. -/
theorem flat_anc_not_h1 (doc : List Node) (hflat : headingsFlat doc = true)
    (X : List Nat) (xn : Node) (hgX : getAt? doc X = some xn)
    (hheadX : isHeading123 xn = true) :
    ∀ Pa t a cs1, Pa.isPrefixOf X = true → ¬ Pa = X →
      getAt? doc Pa = some (Node.elem t a cs1) → ¬ t = chars "h1" := by
  intro Pa t a cs1 hpre hne hgPa ht
  obtain ⟨Q, rfl⟩ := isPrefixOf_exists_append Pa X hpre
  have hQ : Q ≠ [] := by
    rintro rfl
    exact hne (by simp)
  have hchild : childAt (Node.elem t a cs1) Q = some xn := by
    rw [← getAt?_append_childAt Pa doc Q _ hQ hgPa]
    exact hgX
  obtain ⟨t2, a2, cs2, heq, hmemx⟩ := childAt_mem_desc _ Q xn hchild
  injection heq with e1 e2 e3
  subst e3
  have hmemPa : Node.elem t a cs1 ∈ allNodesL doc := getAt?_mem_allNodes doc Pa _ hgPa
  have hheadPa : isHeading123 (Node.elem t a cs1) = true := by
    rw [ht]
    rfl
  have hf := headingsFlat_no_desc doc hflat t a cs1 hmemPa hheadPa xn hmemx
  rw [hheadX] at hf
  cases hf

/-- In a heading-flat document, one heading's position is never a strict
prefix of another heading's position. -/
theorem flat_not_pre (doc : List Node) (hflat : headingsFlat doc = true)
    (L T : List Nat) (ln tn : Node)
    (hgL : getAt? doc L = some ln) (hheadL : isHeading123 ln = true)
    (hgT : getAt? doc T = some tn) (hheadT : isHeading123 tn = true)
    (hne : ¬ L = T) : L.isPrefixOf T = false := by
  cases hb : L.isPrefixOf T with
  | false => rfl
  | true =>
    exfalso
    obtain ⟨Q, rfl⟩ := isPrefixOf_exists_append L T hb
    have hQ : Q ≠ [] := by
      rintro rfl
      exact hne (by simp)
    have hchild : childAt ln Q = some tn := by
      rw [← getAt?_append_childAt L doc Q ln hQ hgL]
      exact hgT
    obtain ⟨t, a, cs, rfl, hmem⟩ := childAt_mem_desc ln Q tn hchild
    have hmemL : Node.elem t a cs ∈ allNodesL doc := getAt?_mem_allNodes doc L _ hgL
    have hf := headingsFlat_no_desc doc hflat t a cs hmemL hheadL tn hmem
    rw [hheadT] at hf
    cases hf

/-- Ancestors of the label position in the modified tree still carry no `h1`
tag, for any modification at a position prefix-unrelated to the label. -/
theorem flat_anc_not_h1_M (doc : List Node) (hflat : headingsFlat doc = true)
    (T : List Nat) (f : Node → Node)
    (L : List Nat) (ln : Node) (hgL : getAt? doc L = some ln)
    (hheadL : isHeading123 ln = true)
    (hTL : T.isPrefixOf L = false) (hLT : L.isPrefixOf T = false) :
    ∀ Pa t a cs1, Pa.isPrefixOf L = true → ¬ Pa = L →
      getAt? (modifyAt doc T f) Pa = some (Node.elem t a cs1) → ¬ t = chars "h1" := by
  intro Pa t a cs1 hpre hne hget ht
  by_cases hPaT : Pa.isPrefixOf T = true
  · have hPaneT : ¬ Pa = T := by
      intro he
      rw [he] at hpre
      rw [hpre] at hTL
      cases hTL
    obtain ⟨cs0, hdoc⟩ := getAt?_modifyAt_anc_shape Pa doc T f hPaT hPaneT t a cs1 hget
    exact flat_anc_not_h1 doc hflat L ln hgL hheadL Pa t a cs0 hpre hne hdoc ht
  · by_cases hTPa : T.isPrefixOf Pa = true
    · have := isPrefixOf_trans_nat T Pa L hTPa hpre
      rw [this] at hTL
      cases hTL
    · have h1f : T.isPrefixOf Pa = false := by
        cases hb : T.isPrefixOf Pa with
        | false => rfl
        | true => exact absurd hb hTPa
      have h2f : Pa.isPrefixOf T = false := by
        cases hb : Pa.isPrefixOf T with
        | false => rfl
        | true => exact absurd hb hPaT
      rw [getAt?_modifyAt_other T doc f Pa h1f h2f] at hget
      exact flat_anc_not_h1 doc hflat L ln hgL hheadL Pa t a cs1 hpre hne hget ht

/-- The chapter branch of `fix_heading_hierarchy` when a label and a following
`h2` exist (lines 225-242). -/
theorem fix_chapter_eq (doc : List Node) (n : List Char) (hn : ¬ n = [])
    (L : List Nat) (Ls : List (List Nat)) (hL : findList chapterLabel doc = L :: Ls)
    (T : List Nat) (hT : findNextH2 doc L = some T) :
    fix_heading_hierarchy doc (chars "chapter") (some n)
      = removeAt (modifyAt doc T
          (setString (n ++ chars ". " ++ pyStrip (textAtPath doc T)))) L := by
  unfold fix_heading_hierarchy
  rw [if_neg (by decide),
      if_pos ⟨rfl, fun h => Option.noConfusion h, fun h => hn (Option.some.inj h)⟩,
      hL]
  dsimp only []
  rw [hT]
  rfl

/-- **C1.** For every chapter document whose tree contains a chapter-label `h1`
(`chapterLabel`: stripped text starts with "chapter " case-insensitively, at
most two tokens) followed later in document order by an `h2` — exactly the
conditions of lines 224-242 — `fix_heading_hierarchy` with
`chapter_type = "chapter"` and number `n` rewrites that `h2`'s text to
`"<n>. <original h2 text>"` (keeping the tag and attributes) and deletes the
label `h1`: the document-order count of chapter-label nodes drops by exactly
one.  (`headingsFlat` is the HTML content-model hypothesis that headings do
not nest.) -/
theorem C1_chapter_heading_rewrite (doc : List Node) (n : List Char) (hn : ¬ n = [])
    (L : List Nat) (Ls : List (List Nat)) (hL : findList chapterLabel doc = L :: Ls)
    (T : List Nat) (hT : findNextH2 doc L = some T)
    (hflat : headingsFlat doc = true) :
    ∃ attrsT csT,
      getAt? doc T = some (Node.elem (chars "h2") attrsT csT) ∧
      getAt? (fix_heading_hierarchy doc (chars "chapter") (some n)) (shiftAfterRemove L T)
        = some (Node.elem (chars "h2") attrsT
            [Node.text (n ++ chars ". " ++ pyStrip (nodesText csT))]) ∧
      cnt chapterLabel (fix_heading_hierarchy doc (chars "chapter") (some n)) + 1
        = cnt chapterLabel doc := by
  have hmemT : T ∈ findList (isTagB (chars "h2")) doc := List.mem_of_find?_eq_some hT
  have hposLT : posLt L T = true := List.find?_some hT
  obtain ⟨tn, hgT0, hpT⟩ := findList_sound _ doc T hmemT
  have hmemL : L ∈ findList chapterLabel doc := by
    rw [hL]
    exact List.mem_cons_self L Ls
  obtain ⟨ln, hgL, hpL⟩ := findList_sound _ doc L hmemL
  have hheadL : isHeading123 ln = true := chapterLabel_imp_heading ln hpL
  cases tn with
  | text s => simp [isTagB] at hpT
  | comment s => simp [isTagB] at hpT
  | elem tg at2 cs =>
    have htg : tg = chars "h2" := by simpa [isTagB] using hpT
    subst htg
    have hgT : getAt? doc T = some (Node.elem (chars "h2") at2 cs) := hgT0
    have hTL : T.isPrefixOf L = false := posLt_not_pre L T hposLT
    have hneLT : ¬ L = T := by
      intro he
      rw [he, isPrefixOf_self_nat] at hTL
      cases hTL
    have hLT : L.isPrefixOf T = false :=
      flat_not_pre doc hflat L T ln _ hgL hheadL hgT (by rfl) hneLT
    have hfix := fix_chapter_eq doc n hn L Ls hL T hT
    have hpred := labelPred_insensitive chapterLabel chapterLabel_tag
    have hch2 : ∀ a2 cs2, chapterLabel (Node.elem (chars "h2") a2 cs2) = false := by
      intro a2 cs2
      cases hb : chapterLabel (Node.elem (chars "h2") a2 cs2) with
      | false => rfl
      | true => exact absurd (chapterLabel_tag _ _ _ hb) (by decide)
    have hcs0 : cnt chapterLabel cs = 0 := by
      rw [cnt, List.countP_eq_zero]
      intro d hd hcl
      have hfd := headingsFlat_no_desc doc hflat (chars "h2") at2 cs
        (getAt?_mem_allNodes doc T _ hgT) (by rfl) d hd
      rw [chapterLabel_imp_heading d hcl] at hfd
      cases hfd
    refine ⟨at2, cs, hgT, ?_, ?_⟩
    · rw [hfix, getAt?_removeAt_shift L _ T hLT hTL, getAt?_modifyAt_self, hgT]
      have htext : textAtPath doc T = nodesText cs := by
        unfold textAtPath
        rw [hgT]
        rfl
      rw [htext]
      rfl
    · rw [hfix]
      have hgLM : getAt? (modifyAt doc T
          (setString (n ++ chars ". " ++ pyStrip (textAtPath doc T)))) L = some ln := by
        rw [getAt?_modifyAt_other T doc _ L hTL hLT]
        exact hgL
      have hancM := flat_anc_not_h1_M doc hflat T
        (setString (n ++ chars ". " ++ pyStrip (textAtPath doc T)))
        L ln hgL hheadL hTL hLT
      have hrem := cnt_removeAt chapterLabel (chars "h1") hpred L
        (modifyAt doc T (setString (n ++ chars ". " ++ pyStrip (textAtPath doc T))))
        ln hgLM hancM
      have hmodsub : ∀ m, getAt? doc T = some m →
          (allNodesN (setString (n ++ chars ". " ++ pyStrip (textAtPath doc T)) m)).countP
              chapterLabel
            = (allNodesN m).countP chapterLabel := by
        intro m hm
        rw [hgT] at hm
        have hm2 := Option.some.inj hm
        rw [← hm2]
        show (allNodesN (Node.elem (chars "h2") at2
            [Node.text (n ++ chars ". " ++ pyStrip (textAtPath doc T))])).countP chapterLabel
          = (allNodesN (Node.elem (chars "h2") at2 cs)).countP chapterLabel
        rw [countP_allNodesN_elem, countP_allNodesN_elem, hch2, hch2, hcs0]
        rfl
      have hancT := flat_anc_not_h1 doc hflat T _ hgT (by rfl)
      have hmod := cnt_modifyAt chapterLabel (chars "h1") hpred T doc
        (setString (n ++ chars ". " ++ pyStrip (textAtPath doc T))) hmodsub hancT
      cases ln with
      | text s => simp [chapterLabel, isTagB] at hpL
      | comment s => simp [chapterLabel, isTagB] at hpL
      | elem tL aL csL =>
        have htL : tL = chars "h1" := chapterLabel_tag _ _ _ hpL
        subst htL
        have hcsL0 : cnt chapterLabel csL = 0 := by
          rw [cnt, List.countP_eq_zero]
          intro d hd hcl
          have hfd := headingsFlat_no_desc doc hflat (chars "h1") aL csL
            (getAt?_mem_allNodes doc L _ hgL) hheadL d hd
          rw [chapterLabel_imp_heading d hcl] at hfd
          cases hfd
        have hcntln : (allNodesN (Node.elem (chars "h1") aL csL)).countP chapterLabel = 1 := by
          rw [countP_allNodesN_elem, hcsL0, if_pos hpL]
        rw [hcntln] at hrem
        rw [hmod] at hrem
        exact hrem

theorem C1_chapter_heading_rewrite_witness :
    (fix_heading_hierarchy
        [Node.elem (chars "h1") [] [Node.text (chars "Chapter One")],
         Node.elem (chars "h2") [] [Node.text (chars "Bytecodes")]]
        (chars "chapter") (some (chars "3"))
      = [Node.elem (chars "h2") [] [Node.text (chars "3. Bytecodes")]]) ∧
    (∃ attrsT csT,
      getAt? [Node.elem (chars "h1") [] [Node.text (chars "Chapter One")],
              Node.elem (chars "h2") [] [Node.text (chars "Bytecodes")]] [1]
        = some (Node.elem (chars "h2") attrsT csT) ∧
      getAt? (fix_heading_hierarchy
          [Node.elem (chars "h1") [] [Node.text (chars "Chapter One")],
           Node.elem (chars "h2") [] [Node.text (chars "Bytecodes")]]
          (chars "chapter") (some (chars "3"))) (shiftAfterRemove [0] [1])
        = some (Node.elem (chars "h2") attrsT
            [Node.text (chars "3" ++ chars ". " ++ pyStrip (nodesText csT))]) ∧
      cnt chapterLabel (fix_heading_hierarchy
          [Node.elem (chars "h1") [] [Node.text (chars "Chapter One")],
           Node.elem (chars "h2") [] [Node.text (chars "Bytecodes")]]
          (chars "chapter") (some (chars "3"))) + 1
        = cnt chapterLabel
            [Node.elem (chars "h1") [] [Node.text (chars "Chapter One")],
             Node.elem (chars "h2") [] [Node.text (chars "Bytecodes")]]) :=
  ⟨by rfl,
   C1_chapter_heading_rewrite
     [Node.elem (chars "h1") [] [Node.text (chars "Chapter One")],
      Node.elem (chars "h2") [] [Node.text (chars "Bytecodes")]]
     (chars "3") (by decide) [0] [] (by rfl) [1] (by rfl) (by rfl)⟩

/-- The appendix branch of `fix_heading_hierarchy` when a label and a following
`h2` exist (lines 244-254). -/
theorem fix_appendix_eq (doc : List Node) (n : List Char) (hn : ¬ n = [])
    (L : List Nat) (Ls : List (List Nat)) (hL : findList appendixLabel doc = L :: Ls)
    (T : List Nat) (hT : findNextH2 doc L = some T) :
    fix_heading_hierarchy doc (chars "appendix") (some n)
      = removeAt (modifyAt doc T
          (setString (chars "Appendix " ++ n ++ chars ". " ++ pyStrip (textAtPath doc T)))) L := by
  unfold fix_heading_hierarchy
  rw [if_neg (by decide),
      if_neg (fun h => absurd h.1 (by decide)),
      if_pos ⟨rfl, fun h => Option.noConfusion h, fun h => hn (Option.some.inj h)⟩,
      hL]
  dsimp only []
  rw [hT]
  rfl

/-- **C6 counterexample.** The appendix branch is not symmetric to the chapter
branch: with a label heading but no following `h2`, the chapter branch leaves
the document unchanged while the appendix branch still deletes the label
(lines 238-242 versus 250-254). -/
theorem C6_counterexample :
    fix_heading_hierarchy [Node.elem (chars "h1") [] [Node.text (chars "Appendix A")]]
        (chars "appendix") (some (chars "B")) = []
    ∧ fix_heading_hierarchy [Node.elem (chars "h1") [] [Node.text (chars "Chapter One")]]
        (chars "chapter") (some (chars "3"))
      = [Node.elem (chars "h1") [] [Node.text (chars "Chapter One")]] :=
  ⟨rfl, rfl⟩

/-- **C6 (amended).** When an appendix label `h1` (`appendixLabel`) is followed
in document order by an `h2`, `fix_heading_hierarchy` with
`chapter_type = "appendix"` and label `n` rewrites that `h2`'s text to
`"Appendix <n>. <original text>"` and deletes the label `h1` (count of
appendix-label nodes drops by one) — the same structure as the chapter case
except for the title format; symmetry fails only when no `h2` follows, where
the appendix branch still deletes the label (see the counterexample). -/
theorem C6_appendix_rewrite (doc : List Node) (n : List Char) (hn : ¬ n = [])
    (L : List Nat) (Ls : List (List Nat)) (hL : findList appendixLabel doc = L :: Ls)
    (T : List Nat) (hT : findNextH2 doc L = some T)
    (hflat : headingsFlat doc = true) :
    ∃ attrsT csT,
      getAt? doc T = some (Node.elem (chars "h2") attrsT csT) ∧
      getAt? (fix_heading_hierarchy doc (chars "appendix") (some n)) (shiftAfterRemove L T)
        = some (Node.elem (chars "h2") attrsT
            [Node.text (chars "Appendix " ++ n ++ chars ". " ++ pyStrip (nodesText csT))]) ∧
      cnt appendixLabel (fix_heading_hierarchy doc (chars "appendix") (some n)) + 1
        = cnt appendixLabel doc := by
  have hmemT : T ∈ findList (isTagB (chars "h2")) doc := List.mem_of_find?_eq_some hT
  have hposLT : posLt L T = true := List.find?_some hT
  obtain ⟨tn, hgT0, hpT⟩ := findList_sound _ doc T hmemT
  have hmemL : L ∈ findList appendixLabel doc := by
    rw [hL]
    exact List.mem_cons_self L Ls
  obtain ⟨ln, hgL, hpL⟩ := findList_sound _ doc L hmemL
  have hheadL : isHeading123 ln = true := appendixLabel_imp_heading ln hpL
  cases tn with
  | text s => simp [isTagB] at hpT
  | comment s => simp [isTagB] at hpT
  | elem tg at2 cs =>
    have htg : tg = chars "h2" := by simpa [isTagB] using hpT
    subst htg
    have hgT : getAt? doc T = some (Node.elem (chars "h2") at2 cs) := hgT0
    have hTL : T.isPrefixOf L = false := posLt_not_pre L T hposLT
    have hneLT : ¬ L = T := by
      intro he
      rw [he, isPrefixOf_self_nat] at hTL
      cases hTL
    have hLT : L.isPrefixOf T = false :=
      flat_not_pre doc hflat L T ln _ hgL hheadL hgT (by rfl) hneLT
    have hfix := fix_appendix_eq doc n hn L Ls hL T hT
    have hpred := labelPred_insensitive appendixLabel appendixLabel_tag
    have hch2 : ∀ a2 cs2, appendixLabel (Node.elem (chars "h2") a2 cs2) = false := by
      intro a2 cs2
      cases hb : appendixLabel (Node.elem (chars "h2") a2 cs2) with
      | false => rfl
      | true => exact absurd (appendixLabel_tag _ _ _ hb) (by decide)
    have hcs0 : cnt appendixLabel cs = 0 := by
      rw [cnt, List.countP_eq_zero]
      intro d hd hcl
      have hfd := headingsFlat_no_desc doc hflat (chars "h2") at2 cs
        (getAt?_mem_allNodes doc T _ hgT) (by rfl) d hd
      rw [appendixLabel_imp_heading d hcl] at hfd
      cases hfd
    refine ⟨at2, cs, hgT, ?_, ?_⟩
    · rw [hfix, getAt?_removeAt_shift L _ T hLT hTL, getAt?_modifyAt_self, hgT]
      have htext : textAtPath doc T = nodesText cs := by
        unfold textAtPath
        rw [hgT]
        rfl
      rw [htext]
      rfl
    · rw [hfix]
      have hgLM : getAt? (modifyAt doc T
          (setString (chars "Appendix " ++ n ++ chars ". " ++ pyStrip (textAtPath doc T)))) L
          = some ln := by
        rw [getAt?_modifyAt_other T doc _ L hTL hLT]
        exact hgL
      have hancM := flat_anc_not_h1_M doc hflat T
        (setString (chars "Appendix " ++ n ++ chars ". " ++ pyStrip (textAtPath doc T)))
        L ln hgL hheadL hTL hLT
      have hrem := cnt_removeAt appendixLabel (chars "h1") hpred L
        (modifyAt doc T
          (setString (chars "Appendix " ++ n ++ chars ". " ++ pyStrip (textAtPath doc T))))
        ln hgLM hancM
      have hmodsub : ∀ m, getAt? doc T = some m →
          (allNodesN (setString
              (chars "Appendix " ++ n ++ chars ". " ++ pyStrip (textAtPath doc T)) m)).countP
              appendixLabel
            = (allNodesN m).countP appendixLabel := by
        intro m hm
        rw [hgT] at hm
        have hm2 := Option.some.inj hm
        rw [← hm2]
        show (allNodesN (Node.elem (chars "h2") at2
            [Node.text (chars "Appendix " ++ n ++ chars ". "
              ++ pyStrip (textAtPath doc T))])).countP appendixLabel
          = (allNodesN (Node.elem (chars "h2") at2 cs)).countP appendixLabel
        rw [countP_allNodesN_elem, countP_allNodesN_elem, hch2, hch2, hcs0]
        rfl
      have hancT := flat_anc_not_h1 doc hflat T _ hgT (by rfl)
      have hmod := cnt_modifyAt appendixLabel (chars "h1") hpred T doc
        (setString (chars "Appendix " ++ n ++ chars ". " ++ pyStrip (textAtPath doc T)))
        hmodsub hancT
      cases ln with
      | text s => simp [appendixLabel, isTagB] at hpL
      | comment s => simp [appendixLabel, isTagB] at hpL
      | elem tL aL csL =>
        have htL : tL = chars "h1" := appendixLabel_tag _ _ _ hpL
        subst htL
        have hcsL0 : cnt appendixLabel csL = 0 := by
          rw [cnt, List.countP_eq_zero]
          intro d hd hcl
          have hfd := headingsFlat_no_desc doc hflat (chars "h1") aL csL
            (getAt?_mem_allNodes doc L _ hgL) hheadL d hd
          rw [appendixLabel_imp_heading d hcl] at hfd
          cases hfd
        have hcntln : (allNodesN (Node.elem (chars "h1") aL csL)).countP appendixLabel = 1 := by
          rw [countP_allNodesN_elem, hcsL0, if_pos hpL]
        rw [hcntln] at hrem
        rw [hmod] at hrem
        exact hrem

theorem C6_appendix_rewrite_witness :
    (fix_heading_hierarchy
        [Node.elem (chars "h1") [] [Node.text (chars "Appendix A")],
         Node.elem (chars "h2") [] [Node.text (chars "Tools")]]
        (chars "appendix") (some (chars "B"))
      = [Node.elem (chars "h2") [] [Node.text (chars "Appendix B. Tools")]]) ∧
    (∃ attrsT csT,
      getAt? [Node.elem (chars "h1") [] [Node.text (chars "Appendix A")],
              Node.elem (chars "h2") [] [Node.text (chars "Tools")]] [1]
        = some (Node.elem (chars "h2") attrsT csT) ∧
      getAt? (fix_heading_hierarchy
          [Node.elem (chars "h1") [] [Node.text (chars "Appendix A")],
           Node.elem (chars "h2") [] [Node.text (chars "Tools")]]
          (chars "appendix") (some (chars "B"))) (shiftAfterRemove [0] [1])
        = some (Node.elem (chars "h2") attrsT
            [Node.text (chars "Appendix " ++ chars "B" ++ chars ". "
              ++ pyStrip (nodesText csT))]) ∧
      cnt appendixLabel (fix_heading_hierarchy
          [Node.elem (chars "h1") [] [Node.text (chars "Appendix A")],
           Node.elem (chars "h2") [] [Node.text (chars "Tools")]]
          (chars "appendix") (some (chars "B"))) + 1
        = cnt appendixLabel
            [Node.elem (chars "h1") [] [Node.text (chars "Appendix A")],
             Node.elem (chars "h2") [] [Node.text (chars "Tools")]]) :=
  ⟨by rfl,
   C6_appendix_rewrite
     [Node.elem (chars "h1") [] [Node.text (chars "Appendix A")],
      Node.elem (chars "h2") [] [Node.text (chars "Tools")]]
     (chars "B") (by decide) [0] [] (by rfl) [1] (by rfl) (by rfl)⟩

theorem textStrings_cons (n : Node) (ns : List Node) :
    textStrings (n :: ns) = textStrings [n] ++ textStrings ns := by
  simp [textStrings, allNodesL, List.filterMap_append]

theorem textStrings_elem (t : List Char) (a : List (List Char × List Char))
    (cs : List Node) : textStrings [Node.elem t a cs] = textStrings cs := by
  simp [textStrings, allNodesL, allNodesN]

theorem textStrings_append (a b : List Node) :
    textStrings (a ++ b) = textStrings a ++ textStrings b := by
  induction a with
  | nil => rfl
  | cons n ns ih =>
    rw [List.cons_append, textStrings_cons n (ns ++ b), ih, textStrings_cons n ns,
        List.append_assoc]

mutual
/-- Decomposing passes only ever drop text content. -/
theorem decomposeAllN_texts (p : Node → Bool) : (n : Node) →
    List.Sublist (textStrings (decomposeAllN p n)) (textStrings [n])
  | .elem t a cs => by
    rw [decomposeAllN]
    split
    · exact List.nil_sublist _
    · rw [textStrings_elem, textStrings_elem]
      exact decomposeAllL_texts p cs
  | .text s => by
    show List.Sublist (textStrings (if p (.text s) then [] else [.text s])) _
    split
    · exact List.nil_sublist _
    · exact List.Sublist.refl _
  | .comment s => by
    show List.Sublist (textStrings (if p (.comment s) then [] else [.comment s])) _
    split
    · exact List.nil_sublist _
    · exact List.Sublist.refl _

theorem decomposeAllL_texts (p : Node → Bool) : (ns : List Node) →
    List.Sublist (textStrings (decomposeAllL p ns)) (textStrings ns)
  | [] => List.Sublist.refl _
  | n :: ns => by
    rw [decomposeAllL, textStrings_append, textStrings_cons]
    exact List.Sublist.append (decomposeAllN_texts p n) (decomposeAllL_texts p ns)
end

mutual
/-- Unwrapping passes keep or drop text content, never add it. -/
theorem unwrapAllN_texts (p : Node → Bool) : (n : Node) →
    List.Sublist (textStrings (unwrapAllN p n)) (textStrings [n])
  | .elem t a cs => by
    rw [unwrapAllN]
    split
    · rw [textStrings_elem]
      exact unwrapAllL_texts p cs
    · rw [textStrings_elem, textStrings_elem]
      exact unwrapAllL_texts p cs
  | .text s => List.Sublist.refl _
  | .comment s => List.Sublist.refl _

theorem unwrapAllL_texts (p : Node → Bool) : (ns : List Node) →
    List.Sublist (textStrings (unwrapAllL p ns)) (textStrings ns)
  | [] => List.Sublist.refl _
  | n :: ns => by
    rw [unwrapAllL, textStrings_append, textStrings_cons]
    exact List.Sublist.append (unwrapAllN_texts p n) (unwrapAllL_texts p ns)
end

mutual
/-- The summary state machine only ever drops text content. -/
theorem summaryN_texts : (n : Node) → ∀ st,
    List.Sublist (textStrings (summaryN st n).fst) (textStrings [n])
  | .elem t a cs, st => by
    rw [summaryN]
    by_cases hs : summaryScanned t = true
    · rw [if_pos hs]
      dsimp only []
      split
      · exact List.nil_sublist _
      · rw [textStrings_elem, textStrings_elem]
        exact summaryL_texts cs _
    · rw [if_neg hs]
      dsimp only []
      rw [textStrings_elem, textStrings_elem]
      exact summaryL_texts cs st
  | .text s, st => List.Sublist.refl _
  | .comment s, st => List.Sublist.refl _

theorem summaryL_texts : (ns : List Node) → ∀ st,
    List.Sublist (textStrings (summaryL st ns).fst) (textStrings ns)
  | [], st => List.Sublist.refl _
  | n :: ns, st => by
    rw [summaryL]
    dsimp only []
    rw [textStrings_append, textStrings_cons]
    exact List.Sublist.append (summaryN_texts n st) (summaryL_texts ns _)
end

mutual
/-- The navigation-image pass only ever drops text content. -/
theorem imgPassN_texts : (n : Node) →
    List.Sublist (textStrings (imgPassN n)) (textStrings [n])
  | .elem t a cs => by
    rw [imgPassN]
    split
    · exact List.nil_sublist _
    · split
      · exact List.nil_sublist _
      · rw [textStrings_elem, textStrings_elem]
        exact imgPassL_texts cs
  | .text s => List.Sublist.refl _
  | .comment s => List.Sublist.refl _

theorem imgPassL_texts : (ns : List Node) →
    List.Sublist (textStrings (imgPassL ns)) (textStrings ns)
  | [] => List.Sublist.refl _
  | n :: ns => by
    rw [imgPassL, textStrings_append, textStrings_cons]
    exact List.Sublist.append (imgPassN_texts n) (imgPassL_texts ns)
end

/-- The whole cleaning pass never adds text content. -/
theorem remove_nav_texts (d : List Node) :
    List.Sublist (textStrings (remove_navigation_elements d)) (textStrings d) :=
  (decomposeAllL_texts _ _).trans
    ((decomposeAllL_texts _ _).trans
    ((decomposeAllL_texts _ _).trans
    ((decomposeAllL_texts _ _).trans
    ((decomposeAllL_texts _ _).trans
    ((decomposeAllL_texts _ _).trans
    ((imgPassL_texts _).trans
    ((unwrapAllL_texts _ _).trans
    ((decomposeAllL_texts _ _).trans
    ((decomposeAllL_texts _ _).trans
    ((decomposeAllL_texts _ _).trans
    ((decomposeAllL_texts _ _).trans
    ((decomposeAllL_texts _ _).trans
    (summaryL_texts d false)))))))))))))

theorem allNodesL_append : ∀ (a b : List Node),
    allNodesL (a ++ b) = allNodesL a ++ allNodesL b := by
  intro a b
  induction a with
  | nil => rfl
  | cons n ns ih => simp [allNodesL, ih]

mutual
/-- A decomposing pass preserves the absence of nodes matching a
child-insensitive predicate. -/
theorem decomposeAllN_pres (p q : Node → Bool)
    (hq : ∀ t a cs1 cs2, q (Node.elem t a cs1) = q (Node.elem t a cs2)) :
    (n : Node) → (allNodesN n).all (fun m => !(q m)) = true →
      (allNodesL (decomposeAllN p n)).all (fun m => !(q m)) = true
  | .elem t a cs, h => by
    rw [decomposeAllN]
    split
    · rfl
    · have e : allNodesN (Node.elem t a cs) = Node.elem t a cs :: allNodesL cs := rfl
      rw [e, List.all_cons] at h
      simp only [Bool.and_eq_true] at h
      have h1 := h.1
      have h2 := h.2
      have hrec := decomposeAllL_pres p q hq cs h2
      show ((Node.elem t a (decomposeAllL p cs) :: allNodesL (decomposeAllL p cs))
          ++ []).all (fun m => !(q m)) = true
      rw [List.append_nil, List.all_cons, hq t a (decomposeAllL p cs) cs, h1, hrec]
      rfl
  | .text s, h => by
    show (allNodesL (if p (.text s) then [] else [.text s])).all (fun m => !(q m)) = true
    split
    · rfl
    · exact h
  | .comment s, h => by
    show (allNodesL (if p (.comment s) then [] else [.comment s])).all
        (fun m => !(q m)) = true
    split
    · rfl
    · exact h

theorem decomposeAllL_pres (p q : Node → Bool)
    (hq : ∀ t a cs1 cs2, q (Node.elem t a cs1) = q (Node.elem t a cs2)) :
    (ns : List Node) → (allNodesL ns).all (fun m => !(q m)) = true →
      (allNodesL (decomposeAllL p ns)).all (fun m => !(q m)) = true
  | [], _ => rfl
  | n :: ns, h => by
    rw [decomposeAllL]
    have e : allNodesL (n :: ns) = allNodesN n ++ allNodesL ns := rfl
    rw [e, List.all_append] at h
    simp only [Bool.and_eq_true] at h
    have h1 := h.1
    have h2 := h.2
    rw [allNodesL_append, List.all_append, decomposeAllN_pres p q hq n h1,
        decomposeAllL_pres p q hq ns h2]
    rfl
end

mutual
/-- Decomposing with a child-insensitive predicate leaves no node matching it,
whatever the input. -/
theorem decomposeAllN_self_none (q : Node → Bool)
    (hq : ∀ t a cs1 cs2, q (Node.elem t a cs1) = q (Node.elem t a cs2)) :
    (n : Node) → (allNodesL (decomposeAllN q n)).all (fun m => !(q m)) = true
  | .elem t a cs => by
    rw [decomposeAllN]
    split
    · rfl
    · rename_i hqn
      have h1 : q (Node.elem t a cs) = false := by
        cases hb : q (Node.elem t a cs) with
        | false => rfl
        | true => exact absurd hb hqn
      show ((Node.elem t a (decomposeAllL q cs) :: allNodesL (decomposeAllL q cs))
          ++ []).all (fun m => !(q m)) = true
      rw [List.append_nil, List.all_cons, hq t a (decomposeAllL q cs) cs, h1,
          decomposeAllL_self_none q hq cs]
      rfl
  | .text s => by
    show (allNodesL (if q (.text s) then [] else [.text s])).all
        (fun m => !(q m)) = true
    split
    · rfl
    · rename_i hqn
      have h1 : q (Node.text s) = false := by
        cases hb : q (Node.text s) with
        | false => rfl
        | true => exact absurd hb hqn
      simp [allNodesL, allNodesN, h1]
  | .comment s => by
    show (allNodesL (if q (.comment s) then [] else [.comment s])).all
        (fun m => !(q m)) = true
    split
    · rfl
    · rename_i hqn
      have h1 : q (Node.comment s) = false := by
        cases hb : q (Node.comment s) with
        | false => rfl
        | true => exact absurd hb hqn
      simp [allNodesL, allNodesN, h1]

theorem decomposeAllL_self_none (q : Node → Bool)
    (hq : ∀ t a cs1 cs2, q (Node.elem t a cs1) = q (Node.elem t a cs2)) :
    (ns : List Node) → (allNodesL (decomposeAllL q ns)).all (fun m => !(q m)) = true
  | [] => rfl
  | n :: ns => by
    rw [decomposeAllL, allNodesL_append, List.all_append,
        decomposeAllN_self_none q hq n, decomposeAllL_self_none q hq ns]
    rfl
end

/-- After `remove_navigation_elements` no `script`, no `hr` and no comment node
remains (passes 9-11 delete them, the later passes only decompose further). -/
theorem remove_nav_no_junk (d : List Node) :
    (allNodesL (remove_navigation_elements d)).all
      (fun n => (!(isTagB (chars "script") n)) && (!(isTagB (chars "hr") n)) &&
        (!(match n with | .comment _ => true | _ => false))) = true := by
  have e : remove_navigation_elements d
      = emptyTagPass (textRemovalPass (keywordPass (chars "font")
          (decomposeAllL (fun n => match n with | .comment _ => true | _ => false)
          (decomposeAllL (isTagB (chars "script"))
          (decomposeAllL (isTagB (chars "hr")) (imgPassL (externalAnchorPass
            (tocPass (keywordPass (chars "center") (keywordPass (chars "p")
            (keywordPass (chars "table") (legacyPass (summaryPass d))))))))))))) := rfl
  have hhr : (allNodesL (remove_navigation_elements d)).all
      (fun m => !(isTagB (chars "hr") m)) = true := by
    rw [e]
    apply decomposeAllL_pres _ (isTagB (chars "hr")) (fun t a c1 c2 => rfl)
    apply decomposeAllL_pres _ (isTagB (chars "hr")) (fun t a c1 c2 => rfl)
    apply decomposeAllL_pres _ (isTagB (chars "hr")) (fun t a c1 c2 => rfl)
    apply decomposeAllL_pres _ (isTagB (chars "hr")) (fun t a c1 c2 => rfl)
    apply decomposeAllL_pres _ (isTagB (chars "hr")) (fun t a c1 c2 => rfl)
    exact decomposeAllL_self_none (isTagB (chars "hr")) (fun t a c1 c2 => rfl) _
  have hscript : (allNodesL (remove_navigation_elements d)).all
      (fun m => !(isTagB (chars "script") m)) = true := by
    rw [e]
    apply decomposeAllL_pres _ (isTagB (chars "script")) (fun t a c1 c2 => rfl)
    apply decomposeAllL_pres _ (isTagB (chars "script")) (fun t a c1 c2 => rfl)
    apply decomposeAllL_pres _ (isTagB (chars "script")) (fun t a c1 c2 => rfl)
    apply decomposeAllL_pres _ (isTagB (chars "script")) (fun t a c1 c2 => rfl)
    exact decomposeAllL_self_none (isTagB (chars "script")) (fun t a c1 c2 => rfl) _
  have hcom : (allNodesL (remove_navigation_elements d)).all
      (fun m => !(match m with | .comment _ => true | _ => false)) = true := by
    rw [e]
    apply decomposeAllL_pres _ (fun n => match n with | .comment _ => true | _ => false)
      (fun t a c1 c2 => rfl)
    apply decomposeAllL_pres _ (fun n => match n with | .comment _ => true | _ => false)
      (fun t a c1 c2 => rfl)
    apply decomposeAllL_pres _ (fun n => match n with | .comment _ => true | _ => false)
      (fun t a c1 c2 => rfl)
    exact decomposeAllL_self_none (fun n => match n with | .comment _ => true | _ => false)
      (fun t a c1 c2 => rfl) _
  rw [List.all_eq_true]
  intro m hm
  have b1 := List.all_eq_true.mp hscript m hm
  have b2 := List.all_eq_true.mp hhr m hm
  have b3 := List.all_eq_true.mp hcom m hm
  simp only [Bool.and_eq_true]
  exact ⟨⟨b1, b2⟩, b3⟩

/-- When no chapter label remains, the chapter branch is the identity
(lines 225-229: `if chapter_label_h1` guards all mutation). -/
theorem fix_chapter_no_label (d : List Node) (cn : Option (List Char))
    (hfind : findList chapterLabel d = []) :
    fix_heading_hierarchy d (chars "chapter") cn = d := by
  unfold fix_heading_hierarchy
  rw [if_neg (by decide)]
  split
  · rw [hfind]
  · split
    · rename_i h
      exact absurd h.1 (by decide)
    · rfl

/-- When no appendix label remains, the appendix branch is the identity. -/
theorem fix_appendix_no_label (d : List Node) (cn : Option (List Char))
    (hfind : findList appendixLabel d = []) :
    fix_heading_hierarchy d (chars "appendix") cn = d := by
  unfold fix_heading_hierarchy
  rw [if_neg (by decide)]
  split
  · rename_i h
    exact absurd h.1 (by decide)
  · split
    · rw [hfind]
    · rfl

/-- **C9.** The cleaning pipeline is total (every pass is a total function, so
a second application raises nothing) and a second application resurrects
nothing: re-cleaning an already-cleaned document only ever drops further text
content (its text strings are a sublist of the cleaned document's), the
cleaned document already contains no `script`, `hr` or comment node for a
second pass to act on, and once a chapter or appendix label heading has been
removed the heading pass is the identity, so no label is reintroduced. -/
theorem C9_second_pass_no_resurrection (doc : List Node) (cn : Option (List Char)) :
    List.Sublist
      (textStrings (remove_navigation_elements (remove_navigation_elements doc)))
      (textStrings (remove_navigation_elements doc)) ∧
    (allNodesL (remove_navigation_elements doc)).all
      (fun n => (!(isTagB (chars "script") n)) && (!(isTagB (chars "hr") n)) &&
        (!(match n with | .comment _ => true | _ => false))) = true ∧
    (findList chapterLabel doc = [] →
      fix_heading_hierarchy doc (chars "chapter") cn = doc) ∧
    (findList appendixLabel doc = [] →
      fix_heading_hierarchy doc (chars "appendix") cn = doc) :=
  ⟨remove_nav_texts _, remove_nav_no_junk doc,
   fun h => fix_chapter_no_label doc cn h,
   fun h => fix_appendix_no_label doc cn h⟩

theorem C9_second_pass_no_resurrection_witness :
    (fix_heading_hierarchy [Node.elem (chars "p") [] [Node.text (chars "hello")]]
        (chars "chapter") (some (chars "3"))
      = [Node.elem (chars "p") [] [Node.text (chars "hello")]]) ∧
    (fix_heading_hierarchy [Node.elem (chars "p") [] [Node.text (chars "hello")]]
        (chars "appendix") (some (chars "B"))
      = [Node.elem (chars "p") [] [Node.text (chars "hello")]]) ∧
    List.Sublist
      (textStrings (remove_navigation_elements (remove_navigation_elements
        [Node.elem (chars "p") [] [Node.text (chars "hello")]])))
      (textStrings (remove_navigation_elements
        [Node.elem (chars "p") [] [Node.text (chars "hello")]])) :=
  ⟨(C9_second_pass_no_resurrection
      [Node.elem (chars "p") [] [Node.text (chars "hello")]]
      (some (chars "3"))).2.2.1 (by rfl),
   (C9_second_pass_no_resurrection
      [Node.elem (chars "p") [] [Node.text (chars "hello")]]
      (some (chars "B"))).2.2.2 (by rfl),
   (C9_second_pass_no_resurrection
      [Node.elem (chars "p") [] [Node.text (chars "hello")]]
      (some (chars "3"))).1⟩
